import Mathlib

/-!
Verification of the moneyclip valuation engine: the multi-currency
conversion resolver (`fx_convert`, `build_fx_graph`, `fx_graph_for` in
`src/utils.rs`) and the FIFO tax-lot matching engine
(`match_sell_against_lots`, `load_buy_lots`, `load_sells_before`,
`realized_gains` in `src/commands/portfolio.rs`).

Modelling conventions:
* `rust_decimal::Decimal` values are modelled as exact rationals `ℚ`
  (the amounts appearing in the repository's own tests are all exactly
  representable, and the spec mandates exact decimal arithmetic).
* `chrono::NaiveDate` and SQL `TEXT` dates in `YYYY-MM-DD` form are
  modelled as `Nat` in `yyyymmdd` form; for well-formed dates the
  numeric order coincides with the string order used by SQL.
* The SQL row sets are modelled as Lean lists; a query's `ORDER BY` is a
  stable sort, and `ROW_NUMBER() OVER (PARTITION BY base, quote ORDER BY
  date DESC) = 1` is the per-pair most-recent-on-or-before selection
  (`fx_rates` has `UNIQUE(date, base, quote)`, so there are no date ties).
* `BinaryHeap<(Decimal, usize)>` is a bag of entries popped greatest
  first in the lexicographic order on `(ℚ, Nat)`, exactly `Ord` on the
  Rust tuple.
-/

deriving instance DecidableEq for Except

/- Batteries marks the `Rat` arithmetic `@[irreducible]`, which blocks `decide`
on concrete rational computations; the kernel ignores reducibility, so
restoring the default setting only helps elaboration and weakens nothing. -/
set_option allowUnsafeReducibility true in
attribute [semireducible] Rat.mul Rat.add Rat.sub Rat.inv Rat.ofScientific

namespace Moneyclip

/-! ## FX data model (`src/utils.rs`) -/

/-- One row of the `fx_rates` table: `{date, base, quote, rate}`.
The stored decimal string is modelled as the exact rational it denotes. -/
structure RateRow where
  date : Nat
  base : String
  quote : String
  rate : ℚ
deriving DecidableEq, Repr

/-- `struct FxGraph { adjacency: Vec<Vec<(usize, Decimal)>>, currency_index: HashMap<String, usize> }`.
The currency index is an association list; the code only inserts fresh keys,
so a list with distinct keys models the `HashMap` faithfully. -/
structure FxGraph where
  adjacency : List (List (Nat × ℚ))
  currencyIndex : List (String × Nat)
deriving DecidableEq, Repr

/-- The typed failures of the conversion resolver:
`anyhow!("No FX rate path from {from} to {to} on or before {date}")` and
`ensure!(rate > 0, "FX rate for {base}/{quote} on or before {date} is not positive")`. -/
inductive FxError where
  | notConvertible (fromCcy toCcy : String) (date : Nat)
  | invalidRate (base quote : String) (date : Nat)
deriving DecidableEq, Repr

/-- `Decimal::abs` (and the `.abs()` applied to trade quantities). -/
def ratAbs (q : ℚ) : ℚ := if q < 0 then -q else q

/-- `graph.currency_index.get(ccy)`. -/
def lookupIndex (m : List (String × Nat)) (ccy : String) : Option Nat :=
  (m.find? fun p => p.1 = ccy).map (·.2)

/-- Helper for the SQL windowed selection: fold one eligible row into the
per-pair latest-dated selection, keeping first-seen pair order. -/
def updateSelected : List RateRow → RateRow → List RateRow
  | [], row => [row]
  | r :: rest, row =>
    if r.base = row.base ∧ r.quote = row.quote then
      (if r.date < row.date then row else r) :: rest
    else
      r :: updateSelected rest row

/-- The row set produced by
`SELECT base, quote, rate FROM (SELECT ..., ROW_NUMBER() OVER (PARTITION BY
base, quote ORDER BY date DESC) AS rn FROM fx_rates WHERE date <= ?1) WHERE rn = 1`:
for every (base, quote) pair, the latest row dated on or before `d`. -/
def selectRatesFor (table : List RateRow) (d : Nat) : List RateRow :=
  (table.filter fun r => r.date ≤ d).foldl updateSelected []

/-- `match currency_index.entry(c) { Occupied => idx, Vacant => fresh index }`:
returns the index of `c`, inserting a fresh empty adjacency row when absent. -/
def getOrInsertIndex (g : FxGraph) (c : String) : Nat × FxGraph :=
  match lookupIndex g.currencyIndex c with
  | some i => (i, g)
  | none =>
    (g.adjacency.length,
      ⟨g.adjacency ++ [[]], g.currencyIndex ++ [(c, g.adjacency.length)]⟩)

/-- `adjacency[i].push(e)`. -/
def pushEdge (adj : List (List (Nat × ℚ))) (i : Nat) (e : Nat × ℚ) :
    List (List (Nat × ℚ)) :=
  adj.set i (adj.getD i [] ++ [e])

/-- Add one selected rate row to the graph:
`adjacency[base_idx].push((quote_idx, rate)); adjacency[quote_idx].push((base_idx, ONE / rate))`. -/
def addRateRow (g : FxGraph) (row : RateRow) : FxGraph :=
  let bg := getOrInsertIndex g row.base
  let qg := getOrInsertIndex bg.2 row.quote
  ⟨pushEdge (pushEdge qg.2.adjacency bg.1 (qg.1, row.rate)) qg.1 (bg.1, row.rate⁻¹),
   qg.2.currencyIndex⟩

/-- The row scan of `build_fx_graph`: reject a non-positive rate with
`InvalidRate`, otherwise add both the forward edge and the synthesized
reciprocal edge and continue. -/
def buildFxGraphAux (d : Nat) : List RateRow → FxGraph → Except FxError FxGraph
  | [], g => .ok g
  | row :: rest, g =>
    if 0 < row.rate then buildFxGraphAux d rest (addRateRow g row)
    else .error (.invalidRate row.base row.quote d)

/-- `build_fx_graph(conn, date)` applied to the selected row set. -/
def buildFxGraph (rows : List RateRow) (d : Nat) : Except FxError FxGraph :=
  buildFxGraphAux d rows ⟨[], []⟩

/-! ## The best-path search inside `fx_convert` -/

/-- Strict order on heap entries: the lexicographic `Ord` on `(Decimal, usize)`. -/
def entryLt (a b : ℚ × Nat) : Prop :=
  a.1 < b.1 ∨ (a.1 = b.1 ∧ a.2 < b.2)

instance (a b : ℚ × Nat) : Decidable (entryLt a b) := by
  unfold entryLt; infer_instance

/-- The greatest entry among `e` and `l`. -/
def maxEntry (e : ℚ × Nat) : List (ℚ × Nat) → ℚ × Nat
  | [] => e
  | x :: xs => maxEntry (if entryLt e x then x else e) xs

/-- Remove the first occurrence of `e` from the bag. -/
def removeFirst (e : ℚ × Nat) : List (ℚ × Nat) → List (ℚ × Nat)
  | [] => []
  | x :: xs => if x = e then xs else x :: removeFirst e xs

/-- `BinaryHeap::pop`: remove and return the greatest entry of the bag. -/
def popMax : List (ℚ × Nat) → Option ((ℚ × Nat) × List (ℚ × Nat))
  | [] => none
  | x :: xs => some (maxEntry x xs, removeFirst (maxEntry x xs) (x :: xs))

/-- The mutable state of the search loop: `best: Vec<Decimal>` and the heap bag. -/
structure SearchState where
  best : List ℚ
  heap : List (ℚ × Nat)
deriving DecidableEq, Repr

/-- `for &(next_idx, rate) in &adjacency[idx] { ... }`: relax every edge out of
the popped node, pushing a heap entry whenever the amount strictly improves. -/
def relaxEdges (a : ℚ) : List (Nat × ℚ) → SearchState → SearchState
  | [], s => s
  | (j, r) :: es, s =>
    if s.best.getD j 0 < a * r then
      relaxEdges a es ⟨s.best.set j (a * r), (a * r, j) :: s.heap⟩
    else
      relaxEdges a es s

/-- The outcome of one iteration of the `while let Some(...) = heap.pop()` loop. -/
inductive StepRes where
  | next (s : SearchState)
  | foundRes (a : ℚ)
  | noPath
deriving DecidableEq, Repr

/-- One iteration of the search loop: pop the greatest entry, skip it when
stale, return when the target is popped, otherwise relax its edges. -/
def stepSearch (adj : List (List (Nat × ℚ))) (toIdx : Nat) (s : SearchState) :
    StepRes :=
  match popMax s.heap with
  | none => .noPath
  | some (e, rest) =>
    if e.1 < s.best.getD e.2 0 then .next ⟨s.best, rest⟩
    else if e.2 = toIdx then .foundRes e.1
    else .next (relaxEdges e.1 (adj.getD e.2 []) ⟨s.best, rest⟩)

/-- The search loop with explicit fuel. `none` means the fuel ran out (the
Rust loop is still running); `some none` is loop exit with no path found;
`some (some a)` is the amount at which the target was popped. -/
def fxSearch (adj : List (List (Nat × ℚ))) (toIdx : Nat) :
    Nat → SearchState → Option (Option ℚ)
  | 0, _ => none
  | fuel + 1, s =>
    match stepSearch adj toIdx s with
    | .noPath => some none
    | .foundRes a => some (some a)
    | .next s' => fxSearch adj toIdx fuel s'

/-- The initial search state: `best[from_idx] = magnitude; heap.push((magnitude, from_idx))`. -/
def initState (n : Nat) (fromIdx : Nat) (m : ℚ) : SearchState :=
  ⟨(List.replicate n (0 : ℚ)).set fromIdx m, [(m, fromIdx)]⟩

/-- The part of `fx_convert` that runs on an already-built graph: index
lookups, the zero-magnitude early return, the best-path search, and the
reapplication of the sign. -/
def fxConvertOnGraph (graph : FxGraph) (fuel : Nat) (date : Nat) (amount : ℚ)
    (fromCcy toCcy : String) : Option (Except FxError ℚ) :=
  match lookupIndex graph.currencyIndex fromCcy with
  | none => some (.error (.notConvertible fromCcy toCcy date))
  | some fromIdx =>
    match lookupIndex graph.currencyIndex toCcy with
    | none => some (.error (.notConvertible fromCcy toCcy date))
    | some toIdx =>
      let magnitude := ratAbs amount
      if magnitude = 0 then some (.ok amount)
      else
        match fxSearch graph.adjacency toIdx fuel
            (initState graph.adjacency.length fromIdx magnitude) with
        | none => none
        | some none => some (.error (.notConvertible fromCcy toCcy date))
        | some (some a) => some (.ok (if amount < 0 then -a else a))

/-- `fx_convert(conn, date, amount, from_ccy, to_ccy)` over a modelled rate
table, with explicit fuel for the search loop: `none` means the loop is
still running after `fuel` iterations. -/
def fxConvert (table : List RateRow) (fuel : Nat) (date : Nat) (amount : ℚ)
    (fromCcy toCcy : String) : Option (Except FxError ℚ) :=
  if fromCcy = toCcy then some (.ok amount)
  else
    match buildFxGraph (selectRatesFor table date) date with
    | .error e => some (.error e)
    | .ok graph => fxConvertOnGraph graph fuel date amount fromCcy toCcy

/-! ## Specification-side notions for the graph search -/

/-- A walk through the graph from `i` to `j` whose edge weights multiply to `p`. -/
inductive Walk (adj : List (List (Nat × ℚ))) : Nat → Nat → ℚ → Prop
  | refl (i : Nat) : Walk adj i i 1
  | head {i j k : Nat} {r p : ℚ} :
      (j, r) ∈ adj.getD i [] → Walk adj j k p → Walk adj i k (r * p)

/-- `j` is reachable from `i` in the graph. -/
def Reaches (adj : List (List (Nat × ℚ))) (i j : Nat) : Prop :=
  ∃ p, Walk adj i j p

/-- No walk at all joins `i` to `j`. -/
def NoFxPath (adj : List (List (Nat × ℚ))) (i j : Nat) : Prop :=
  ∀ p, ¬ Walk adj i j p

/-- The conversion call never returns, whatever iteration budget the search
loop is given: the`while let Some(...) = heap.pop()` loop runs forever. -/
def FxDiverges (table : List RateRow) (date : Nat) (amount : ℚ)
    (fromCcy toCcy : String) : Prop :=
  ∀ fuel, fxConvert table fuel date amount fromCcy toCcy = none

/-- Every adjacency-list edge points inside the graph and carries a positive
weight (established by `buildFxGraph`). -/
def AdjWF (adj : List (List (Nat × ℚ))) : Prop :=
  ∀ l ∈ adj, ∀ e ∈ l, e.1 < adj.length ∧ 0 < e.2

/-- The rates are consistent: a positive valuation `φ` of the nodes prices
every edge as the ratio of its endpoint values (equivalently, no cycle of
edge weights multiplies to more than 1). -/
def ConsistentWith (adj : List (List (Nat × ℚ))) (φ : Nat → ℚ) : Prop :=
  (∀ i, 0 < φ i) ∧ ∀ i, ∀ e ∈ adj.getD i [], e.2 = φ e.1 / φ i

/-- Scale every recorded amount of a search state by `c` (used to show that
the search loop is homogeneous in the amounts, hence pumps forever around a
cycle whose weight product exceeds 1). -/
def scaleState (c : ℚ) (s : SearchState) : SearchState :=
  ⟨s.best.map (fun q => c * q), s.heap.map (fun e => (c * e.1, e.2))⟩

/-! ## The conversion cache (`fx_graph_for`, `FX_GRAPH_CACHE`) -/

/-- `struct FxGraphCacheEntry { data_version, total_changes, graphs, order }`. -/
structure FxCacheEntry where
  dataVersion : Nat
  totalChanges : Nat
  graphs : List (Nat × FxGraph)
  order : List Nat
deriving DecidableEq, Repr

/-- The persisted store as the cache sees it: the `fx_rates` table plus the
two generation counters, `PRAGMA data_version` and `sqlite3_total_changes`. -/
structure FxStore where
  rates : List RateRow
  dataVersion : Nat
  totalChanges : Nat
deriving DecidableEq, Repr

/-- `MAX_FX_GRAPH_CACHE_DATES`. -/
def maxFxGraphCacheDates : Nat := 32

/-- `entry.graphs.get(&date)`. -/
def lookupGraph (gs : List (Nat × FxGraph)) (d : Nat) : Option FxGraph :=
  (gs.find? fun p => p.1 = d).map (·.2)

/-- `entry.graphs.insert(date, graph)`. -/
def insertGraph (gs : List (Nat × FxGraph)) (d : Nat) (g : FxGraph) :
    List (Nat × FxGraph) :=
  (gs.filter fun p => p.1 ≠ d) ++ [(d, g)]

/-- `entry.graphs.remove(&date)`. -/
def removeGraph (gs : List (Nat × FxGraph)) (d : Nat) : List (Nat × FxGraph) :=
  gs.filter fun p => p.1 ≠ d

/-- `while entry.order.len() > MAX_FX_GRAPH_CACHE_DATES { pop_front; remove }`. -/
def evictLoop : List Nat → List (Nat × FxGraph) → List (Nat × FxGraph) × List Nat
  | [], gs => (gs, [])
  | o :: rest, gs =>
    if maxFxGraphCacheDates < rest.length + 1 then evictLoop rest (removeGraph gs o)
    else (gs, o :: rest)

/-- The miss path of `fx_graph_for`: build the graph, then store it under the
store's (re-read) generation stamps, resetting the entry when its stamps are
stale, and evict least-recently-used dates beyond the capacity. In this
sequential model the re-read stamps are the same stamps. -/
def fxGraphMiss (store : FxStore) (entry? : Option FxCacheEntry) (d : Nat) :
    Except FxError (FxGraph × FxCacheEntry) :=
  match buildFxGraph (selectRatesFor store.rates d) d with
  | .error e => .error e
  | .ok g =>
    let e0 :=
      match entry? with
      | some e => e
      | none => ⟨store.dataVersion, store.totalChanges, [], []⟩
    let e1 :=
      if e0.dataVersion = store.dataVersion ∧ e0.totalChanges = store.totalChanges
      then e0
      else ⟨store.dataVersion, store.totalChanges, [], []⟩
    let order2 := (e1.order.filter fun o => o ≠ d) ++ [d]
    let graphs2 := insertGraph e1.graphs d g
    let ev := evictLoop order2 graphs2
    .ok (g, ⟨store.dataVersion, store.totalChanges, ev.1, ev.2⟩)

/-- `fx_graph_for(conn, date)`: serve the cached graph when the entry's
generation stamps equal the store's current generation and the date is
cached; otherwise rebuild and cache. Returns the graph and the new cache
entry for this store. -/
def fxGraphFor (store : FxStore) (entry? : Option FxCacheEntry) (d : Nat) :
    Except FxError (FxGraph × FxCacheEntry) :=
  match entry? with
  | some e =>
    if e.dataVersion = store.dataVersion ∧ e.totalChanges = store.totalChanges then
      match lookupGraph e.graphs d with
      | some g => .ok (g, e)
      | none => fxGraphMiss store (some e) d
    else fxGraphMiss store (some e) d
  | none => fxGraphMiss store none d

/-- `fx_convert` run against the store through the cache: the conversion
result together with the cache entry left behind. -/
def fxConvertCached (store : FxStore) (entry? : Option FxCacheEntry)
    (fuel : Nat) (date : Nat) (amount : ℚ) (fromCcy toCcy : String) :
    Option (Except FxError ℚ) × Option FxCacheEntry :=
  if fromCcy = toCcy then (some (.ok amount), entry?)
  else
    match fxGraphFor store entry? date with
    | .error e => (some (.error e), entry?)
    | .ok (graph, e') =>
      (fxConvertOnGraph graph fuel date amount fromCcy toCcy, some e')

/-- The events that touch the store or the cache: a write to the rate table
(replacing the row set and advancing the generation counters), or a
conversion call (which may populate the cache). -/
inductive FxOp where
  | write (newRates : List RateRow) (dvBump tcBump : Nat)
  | convertCall (fuel date : Nat) (amount : ℚ) (fromCcy toCcy : String)

/-- Apply one event to the store-and-cache state. -/
def applyOp : FxStore × Option FxCacheEntry → FxOp → FxStore × Option FxCacheEntry
  | (store, cache), .write rs dvBump tcBump =>
    (⟨rs, store.dataVersion + dvBump, store.totalChanges + tcBump⟩, cache)
  | (store, cache), .convertCall fuel d amount f t =>
    (store, (fxConvertCached store cache fuel d amount f t).2)

/-- The store-and-cache states reachable from an empty cache: conversion
calls, and rate-table writes that advance at least one generation counter
(every write to `fx_rates` advances `sqlite3_total_changes`, and a write by
another connection advances `PRAGMA data_version`). -/
inductive ReachableCache : FxStore × Option FxCacheEntry → Prop
  | init (store : FxStore) : ReachableCache (store, none)
  | stepWrite {s : FxStore × Option FxCacheEntry} (rs : List RateRow)
      (dvBump tcBump : Nat) (hBump : 0 < dvBump + tcBump) :
      ReachableCache s → ReachableCache (applyOp s (.write rs dvBump tcBump))
  | stepConvert {s : FxStore × Option FxCacheEntry} (fuel d : Nat) (amount : ℚ)
      (fromCcy toCcy : String) :
      ReachableCache s → ReachableCache (applyOp s (.convertCall fuel d amount fromCcy toCcy))

/-! ## FIFO tax-lot matching (`src/commands/portfolio.rs`) -/

/-- The `side` column of a trade row. -/
inductive Side where
  | buy
  | sell
deriving DecidableEq, Repr

/-- One row of `trades` joined with `assets`: date (as `yyyymmdd`), ticker,
quantity (possibly negative as stored; readers take the absolute value),
unit price, fees, side and the asset's currency. -/
structure Trade where
  date : Nat
  ticker : String
  quantity : ℚ
  price : ℚ
  fees : ℚ
  side : Side
  currency : String
deriving DecidableEq, Repr

/-- `struct Lot { date, remaining, original_qty, price, fees }`. -/
structure Lot where
  date : Nat
  remaining : ℚ
  originalQty : ℚ
  price : ℚ
  fees : ℚ
deriving DecidableEq, Repr

/-- `struct SellRecord { date, quantity, price, fees }`. -/
structure SellRecord where
  date : Nat
  quantity : ℚ
  price : ℚ
  fees : ℚ
deriving DecidableEq, Repr

/-- `struct RealizedGainRow { ticker, sell_date, currency, realized_gain }`. -/
structure RealizedGainRow where
  ticker : String
  sellDate : Nat
  currency : String
  realizedGain : ℚ
deriving DecidableEq, Repr

/-- The typed failures of the lot-matching engine:
`"No purchase lots ..."` (no eligible lot at all) and
`"Sell of {t} on {d} exceeds available lot quantity ..."`. -/
inductive GainError where
  | noEligibleLots (ticker : String) (date : Nat)
  | insufficientLots (ticker : String) (date : Nat)
deriving DecidableEq, Repr

/-- Stable insertion into a list sorted by `le` (insert after every element
that `le`-precedes-or-equals the new one). -/
def insertBy (le : Trade → Trade → Prop) [DecidableRel le] (x : Trade) :
    List Trade → List Trade
  | [] => [x]
  | y :: ys => if le y x then y :: insertBy le x ys else x :: y :: ys

/-- Stable insertion sort: the model of a SQL `ORDER BY` over the row list. -/
def sortBy (le : Trade → Trade → Prop) [DecidableRel le] : List Trade → List Trade
  | [] => []
  | x :: xs => insertBy le x (sortBy le xs)

/-- `ORDER BY t.date`. -/
def dateLe (a b : Trade) : Prop := a.date ≤ b.date

instance : DecidableRel dateLe := fun a b => by unfold dateLe; infer_instance

/-- Lexicographic comparison of two character lists by codepoint: the order
SQLite's `ORDER BY` puts `TEXT` values in (byte order; identical to codepoint
order for the ASCII tickers at hand). -/
def charsLt : List Char → List Char → Bool
  | [], [] => false
  | [], _ :: _ => true
  | _ :: _, [] => false
  | a :: as, b :: bs =>
    if a.toNat < b.toNat then true
    else if b.toNat < a.toNat then false
    else charsLt as bs

/-- `ORDER BY a.ticker, t.date`. -/
def tickerDateLe (a b : Trade) : Prop :=
  charsLt a.ticker.data b.ticker.data = true ∨ (a.ticker = b.ticker ∧ a.date ≤ b.date)

instance : DecidableRel tickerDateLe := fun a b => by unfold tickerDateLe; infer_instance

/-- The `for lot in lots.iter_mut()` loop of `match_sell_against_lots`:
returns the realized gain accumulated, the unfilled remainder of the sell
quantity, and the lot list with its remaining quantities reduced. -/
def matchLoop (sellDate : Nat) (totalQty sellPrice sellFees : ℚ) :
    List Lot → ℚ → ℚ → ℚ × ℚ × List Lot
  | [], realized, remaining => (realized, remaining, [])
  | lot :: rest, realized, remaining =>
    if remaining ≤ 0 then (realized, remaining, lot :: rest)
    else if lot.remaining ≤ 0 then
      let t := matchLoop sellDate totalQty sellPrice sellFees rest realized remaining
      (t.1, t.2.1, lot :: t.2.2)
    else if sellDate < lot.date then (realized, remaining, lot :: rest)
    else
      let useQty := if remaining < lot.remaining then remaining else lot.remaining
      let buyFeeShare :=
        if lot.originalQty = 0 then 0 else lot.fees * (useQty / lot.originalQty)
      let buyCost := lot.price * useQty + buyFeeShare
      let feeAllocation :=
        if totalQty = 0 then 0 else sellFees * (useQty / totalQty)
      let sellProceeds := sellPrice * useQty - feeAllocation
      let t := matchLoop sellDate totalQty sellPrice sellFees rest
        (realized + (sellProceeds - buyCost)) (remaining - useQty)
      (t.1, t.2.1, { lot with remaining := lot.remaining - useQty } :: t.2.2)

/-- `match_sell_against_lots(ticker, lots, sell_date, sell_qty, sell_price, sell_fees)`:
the realized gain and the mutated lot list, or the typed failure when the
sell quantity cannot be filled from lots dated on or before the sell date. -/
def matchSellAgainstLots (ticker : String) (lots : List Lot) (sellDate : Nat)
    (sellQty sellPrice sellFees : ℚ) : Except GainError (ℚ × List Lot) :=
  if sellQty = 0 then .ok (0, lots)
  else
    let t := matchLoop sellDate sellQty sellPrice sellFees lots 0 sellQty
    if 0 < t.2.1 then
      if t.2.2.any (fun lot => decide (lot.date ≤ sellDate)) then
        .error (.insufficientLots ticker sellDate)
      else
        .error (.noEligibleLots ticker sellDate)
    else .ok (t.1, t.2.2)

/-- The same loop with the two fee prorations written as bare divisions
(no zero-divisor guards); used to state that the guards never matter for
loaded lots. -/
def matchLoopDiv (sellDate : Nat) (totalQty sellPrice sellFees : ℚ) :
    List Lot → ℚ → ℚ → ℚ × ℚ × List Lot
  | [], realized, remaining => (realized, remaining, [])
  | lot :: rest, realized, remaining =>
    if remaining ≤ 0 then (realized, remaining, lot :: rest)
    else if lot.remaining ≤ 0 then
      let t := matchLoopDiv sellDate totalQty sellPrice sellFees rest realized remaining
      (t.1, t.2.1, lot :: t.2.2)
    else if sellDate < lot.date then (realized, remaining, lot :: rest)
    else
      let useQty := if remaining < lot.remaining then remaining else lot.remaining
      let buyCost := lot.price * useQty + lot.fees * (useQty / lot.originalQty)
      let sellProceeds := sellPrice * useQty - sellFees * (useQty / totalQty)
      let t := matchLoopDiv sellDate totalQty sellPrice sellFees rest
        (realized + (sellProceeds - buyCost)) (remaining - useQty)
      (t.1, t.2.1, { lot with remaining := lot.remaining - useQty } :: t.2.2)

/-- `load_buy_lots`: the ticker's buy trades in date order, quantities taken
absolutely, zero-quantity rows skipped, each made a fresh lot. -/
def loadBuyLots (trades : List Trade) (ticker : String) : List Lot :=
  (sortBy dateLe (trades.filter fun t =>
      decide (t.side = .buy) && decide (t.ticker = ticker))).filterMap fun t =>
    if ratAbs t.quantity = 0 then none
    else some ⟨t.date, ratAbs t.quantity, ratAbs t.quantity, t.price, t.fees⟩

/-- `load_sells_before`: the ticker's sell trades strictly before the cutoff,
in date order, quantities taken absolutely, zero-quantity rows skipped. -/
def loadSellsBefore (trades : List Trade) (ticker : String) (cutoff : Nat) :
    List SellRecord :=
  (sortBy dateLe (trades.filter fun t =>
      decide (t.side = .sell) && decide (t.ticker = ticker) && decide (t.date < cutoff))).filterMap
    fun t =>
      if ratAbs t.quantity = 0 then none
      else some ⟨t.date, ratAbs t.quantity, t.price, t.fees⟩

/-- The pre-consumption pass: replay each earlier sell against the lot list,
keeping only its effect on the remaining quantities. -/
def replaySells (ticker : String) : List Lot → List SellRecord → Except GainError (List Lot)
  | lots, [] => .ok lots
  | lots, s :: rest =>
    match matchSellAgainstLots ticker lots s.date s.quantity s.price s.fees with
    | .error e => .error e
    | .ok t => replaySells ticker t.2 rest

/-- The mutable state of the `realized_gains` loop: `lots_cache` and
`pre_consumed`. -/
structure RgState where
  lotsCache : List (String × List Lot)
  preConsumed : List String
deriving DecidableEq, Repr

/-- `lots_cache` lookup. -/
def lookupLots (cache : List (String × List Lot)) (ticker : String) :
    Option (List Lot) :=
  (cache.find? fun p => p.1 = ticker).map (·.2)

/-- `lots_cache` update for one ticker. -/
def setLots (cache : List (String × List Lot)) (ticker : String) (lots : List Lot) :
    List (String × List Lot) :=
  (cache.filter fun p => p.1 ≠ ticker) ++ [(ticker, lots)]

/-- The body of the `for sell in sells` loop of `realized_gains` for one sell
row: a zero-quantity sell emits a zero-gain row untouched; otherwise the
ticker's lots are fetched (loading them on first sight), an empty lot list
fails the whole ticker, the pre-consumption pass replays earlier sells the
first time the ticker is seen, and the sell is matched FIFO. -/
def rgStep (trades : List Trade) (yearStart : Nat) (st : RgState) (t : Trade) :
    Except GainError (List RealizedGainRow × RgState) :=
  if ratAbs t.quantity = 0 then .ok ([⟨t.ticker, t.date, t.currency, 0⟩], st)
  else
    let lots :=
      match lookupLots st.lotsCache t.ticker with
      | some l => l
      | none => loadBuyLots trades t.ticker
    if lots.isEmpty then .error (.noEligibleLots t.ticker t.date)
    else
      match
        (if t.ticker ∈ st.preConsumed then .ok (st.preConsumed, lots)
         else
           match replaySells t.ticker lots (loadSellsBefore trades t.ticker yearStart) with
           | .error e => .error e
           | .ok lots' => .ok (st.preConsumed ++ [t.ticker], lots') :
          Except GainError (List String × List Lot))
      with
      | .error e => .error e
      | .ok pl =>
        match matchSellAgainstLots t.ticker pl.2 t.date (ratAbs t.quantity) t.price t.fees with
        | .error e => .error e
        | .ok gl =>
          .ok ([⟨t.ticker, t.date, t.currency, gl.1⟩],
            ⟨setLots st.lotsCache t.ticker gl.2, pl.1⟩)

/-- The `for sell in sells` loop folded over the sell rows. -/
def rgRun (trades : List Trade) (yearStart : Nat) :
    List Trade → RgState → Except GainError (List RealizedGainRow × RgState)
  | [], st => .ok ([], st)
  | t :: ts, st =>
    match rgStep trades yearStart st t with
    | .error e => .error e
    | .ok rs =>
      match rgRun trades yearStart ts rs.2 with
      | .error e => .error e
      | .ok rest => .ok (rs.1 ++ rest.1, rest.2)

/-- Forget the final loop state, keeping the emitted rows or the failure. -/
def rgResult (x : Except GainError (List RealizedGainRow × RgState)) :
    Except GainError (List RealizedGainRow) :=
  match x with
  | .error e => .error e
  | .ok r => .ok r.1

/-- The row set of
`SELECT ... WHERE t.side='sell' AND substr(t.date,1,4)=?1 ORDER BY a.ticker, t.date`. -/
def yearSellsSorted (trades : List Trade) (year : Nat) : List Trade :=
  sortBy tickerDateLe (trades.filter fun t =>
    decide (t.side = .sell) && decide (t.date / 10000 = year))

/-- `realized_gains(conn, year)`: the year's sell rows in (ticker, date)
order folded through the matching loop, returning the realized-gain rows. -/
def realizedGains (trades : List Trade) (year : Nat) :
    Except GainError (List RealizedGainRow) :=
  match rgRun trades (year * 10000 + 101) (yearSellsSorted trades year) ⟨[], []⟩ with
  | .error e => .error e
  | .ok rs => .ok rs.1

/-! ## The grouped reference form of `realized_gains` (one ticker at a time) -/

/-- Process one ticker's year sells in date order. The lot state starts
absent; the first nonzero-quantity sell loads the buy lots once, fails the
ticker when there are none, and replays — once, in date order — every sell
dated strictly before the year's start, discarding the replayed gains but
keeping the reduced remaining quantities; every later sell continues from
the same lot list. -/
def ptRun (trades : List Trade) (yearStart : Nat) :
    List Trade → Option (List Lot) → Except GainError (List RealizedGainRow)
  | [], _ => .ok []
  | t :: ts, acc =>
    if ratAbs t.quantity = 0 then
      match ptRun trades yearStart ts acc with
      | .error e => .error e
      | .ok rows => .ok (⟨t.ticker, t.date, t.currency, 0⟩ :: rows)
    else
      match
        (match acc with
         | some l => .ok l
         | none =>
           if (loadBuyLots trades t.ticker).isEmpty then
             .error (.noEligibleLots t.ticker t.date)
           else
             replaySells t.ticker (loadBuyLots trades t.ticker)
               (loadSellsBefore trades t.ticker yearStart) :
          Except GainError (List Lot))
      with
      | .error e => .error e
      | .ok lots =>
        match matchSellAgainstLots t.ticker lots t.date (ratAbs t.quantity) t.price t.fees with
        | .error e => .error e
        | .ok gl =>
          match ptRun trades yearStart ts (some gl.2) with
          | .error e => .error e
          | .ok rows => .ok (⟨t.ticker, t.date, t.currency, gl.1⟩ :: rows)

/-- Split a row list into maximal runs of equal tickers. -/
def chunkByTicker : List Trade → List (List Trade)
  | [] => []
  | t :: ts =>
    (t :: ts.takeWhile fun u => decide (u.ticker = t.ticker)) ::
      chunkByTicker (ts.dropWhile fun u => decide (u.ticker = t.ticker))
termination_by l => l.length
decreasing_by
  simp only [List.length_cons]
  exact Nat.lt_succ_of_le (List.dropWhile_sublist _).length_le

/-- Run the per-ticker processor over each ticker block in order. -/
def runBlocks (trades : List Trade) (yearStart : Nat) :
    List (List Trade) → Except GainError (List RealizedGainRow)
  | [] => .ok []
  | b :: bs =>
    match ptRun trades yearStart b none with
    | .error e => .error e
    | .ok rows =>
      match runBlocks trades yearStart bs with
      | .error e => .error e
      | .ok rest => .ok (rows ++ rest)

/-- The grouped reference form: the year's sells, sorted as the SQL query
orders them, split into ticker blocks, each processed independently. -/
def realizedGainsGrouped (trades : List Trade) (year : Nat) :
    Except GainError (List RealizedGainRow) :=
  runBlocks trades (year * 10000 + 101) (chunkByTicker (yearSellsSorted trades year))

/-- The total remaining quantity held by lots dated on or before `d`
(the quantity FIFO matching can draw on). -/
def eligibleRemaining (lots : List Lot) (d : Nat) : ℚ :=
  ((lots.filter fun lot => decide (lot.date ≤ d)).map (·.remaining)).sum

/-! ## Invariants and auxiliary notions used by the statements and proofs -/

/-- Well-formedness `buildFxGraph` establishes: the currency index points
inside the adjacency vector, and every edge points inside it and carries a
positive weight. -/
def GraphWF (g : FxGraph) : Prop :=
  (∀ p ∈ g.currencyIndex, p.2 < g.adjacency.length) ∧ AdjWF g.adjacency

/-- The amount the search records at node `i` when it starts with amount `m`
at `fromIdx`, in a graph priced by the valuation `φ`. -/
def searchVal (m : ℚ) (φ : Nat → ℚ) (fromIdx i : Nat) : ℚ :=
  m * (φ i / φ fromIdx)

/-- The loop invariant of the best-path search on a consistent graph: `best`
has one slot per node; a recorded amount is either untouched (0) or the
node's valuation amount with the node reachable; heap entries carry exactly
the recorded amount of their node; a reached node either still has a heap
entry or is fully processed (all neighbors reached, and it is not the
target, which would have ended the loop); and the start node is recorded. -/
def SearchInv (adj : List (List (Nat × ℚ))) (φ : Nat → ℚ)
    (fromIdx toIdx : Nat) (m : ℚ) (s : SearchState) : Prop :=
  s.best.length = adj.length ∧
  (∀ i < adj.length, s.best.getD i 0 = 0 ∨
    (s.best.getD i 0 = searchVal m φ fromIdx i ∧ Reaches adj fromIdx i)) ∧
  (∀ e ∈ s.heap, e.2 < adj.length ∧ e.1 = searchVal m φ fromIdx e.2 ∧
    s.best.getD e.2 0 = e.1) ∧
  (∀ i < adj.length, s.best.getD i 0 ≠ 0 →
    (∃ a, (a, i) ∈ s.heap) ∨
      (i ≠ toIdx ∧ ∀ e ∈ adj.getD i [], s.best.getD e.1 0 ≠ 0)) ∧
  s.best.getD fromIdx 0 ≠ 0

/-- The termination measure of the search loop: pending heap entries plus
twice the nodes not yet reached. Every loop iteration strictly decreases it. -/
def searchMeasure (n : Nat) (s : SearchState) : Nat :=
  s.heap.length + 2 * ((List.range n).filter fun i => decide (s.best.getD i 0 = 0)).length

/-- Scale the outcome of one loop iteration by `c`. -/
def scaleStep (c : ℚ) : StepRes → StepRes
  | .next s => .next (scaleState c s)
  | .foundRes a => .foundRes (c * a)
  | .noPath => .noPath

/-- The cache coherence invariant: a cache entry's generation stamps never
run ahead of the store's, and an entry whose stamps equal the store's
current generation caches exactly the graphs the builder would produce from
the store's current rate table. -/
def CacheInv (s : FxStore × Option FxCacheEntry) : Prop :=
  ∀ e, s.2 = some e →
    e.dataVersion + e.totalChanges ≤ s.1.dataVersion + s.1.totalChanges ∧
    ((e.dataVersion = s.1.dataVersion ∧ e.totalChanges = s.1.totalChanges) →
      ∀ d g, lookupGraph e.graphs d = some g →
        buildFxGraph (selectRatesFor s.1.rates d) d = .ok g)

/-! ## Concrete data from the spec's testable properties and the repo tests -/

/-- Best-path example: `USD→CAD=2.0, USD→GBP=0.5, CAD→GBP=0.1` dated 2025-08-01. -/
def hubTable : List RateRow :=
  [⟨20250801, "USD", "CAD", 2⟩, ⟨20250801, "USD", "GBP", 1/2⟩,
   ⟨20250801, "CAD", "GBP", 1/10⟩]

/-- Triangulation example: `USD→EUR=0.8` and `EUR→JPY=130` dated 2025-08-01. -/
def triTable : List RateRow :=
  [⟨20250801, "USD", "EUR", 4/5⟩, ⟨20250801, "EUR", "JPY", 130⟩]

/-- The graph `buildFxGraph` makes of `triTable`. -/
def triGraph : FxGraph :=
  ⟨[[(1, 4/5)], [(0, 5/4), (2, 130)], [(1, 1/130)]],
   [("USD", 0), ("EUR", 1), ("JPY", 2)]⟩

/-- A consistent valuation of `triGraph`: one unit of the currency at index
`i` converts to `triPhi i` units of the base, and every edge weight is the
ratio of its endpoint valuations. -/
def triPhi : Nat → ℚ := fun i =>
  if i = 0 then 1 else if i = 1 then 4/5 else if i = 2 then 104 else 1

/-- A rate table whose stored rows `AAA→BBB=2` and `BBB→AAA=2` form a cycle of
weight product 4 > 1 (mutually inconsistent cross rates), plus a disconnected
pair `CCC→TTT=1`. -/
def pumpTable : List RateRow :=
  [⟨20250801, "AAA", "BBB", 2⟩, ⟨20250801, "BBB", "AAA", 2⟩,
   ⟨20250801, "CCC", "TTT", 1⟩]

/-- The graph `buildFxGraph` makes of `pumpTable`. -/
def pumpGraph : FxGraph :=
  ⟨[[(1, 2), (1, 1/2)], [(0, 1/2), (0, 2)], [(3, 1)], [(2, 1)]],
   [("AAA", 0), ("BBB", 1), ("CCC", 2), ("TTT", 3)]⟩

/-- A rate table with a direct rate `AAA→TTT=1` and a strictly better
indirect route `AAA→BBB=0.5`, `BBB→TTT=10` (product 5). -/
def greedyTable : List RateRow :=
  [⟨20250801, "AAA", "TTT", 1⟩, ⟨20250801, "AAA", "BBB", 1/2⟩,
   ⟨20250801, "BBB", "TTT", 10⟩]

/-- The graph `buildFxGraph` makes of `greedyTable`. -/
def greedyGraph : FxGraph :=
  ⟨[[(1, 1), (2, 1/2)], [(0, 1), (2, 1/10)], [(0, 2), (1, 10)]],
   [("AAA", 0), ("TTT", 1), ("BBB", 2)]⟩

/-- The FIFO matching example of the spec (and of the repo test
`realized_gains_respect_fifo_across_multiple_sells`). -/
def fifoTrades : List Trade :=
  [⟨20200101, "ABC", 100, 10, 5, .buy, "USD"⟩,
   ⟨20210601, "ABC", 50, 15, 2, .buy, "USD"⟩,
   ⟨20250110, "ABC", 80, 20, 4, .sell, "USD"⟩,
   ⟨20250615, "ABC", 50, 25, 5, .sell, "USD"⟩]

/-- A ticker with one zero-quantity sell in the target year and no buy lots. -/
def zeroQtySellTrades : List Trade :=
  [⟨20250301, "XYZ", 0, 30, 1, .sell, "USD"⟩]

/-! # Theorems -/

/-! ## List helpers -/

theorem getD_set_self (l : List ℚ) {i : Nat} (h : i < l.length) (v : ℚ) :
    (l.set i v).getD i 0 = v := by
  simp [List.getD_eq_getElem?_getD, List.getElem?_set_self h]

theorem getD_set_ne (l : List ℚ) {i j : Nat} (h : i ≠ j) (v : ℚ) :
    (l.set i v).getD j 0 = l.getD j 0 := by
  simp [List.getD_eq_getElem?_getD, List.getElem?_set_ne h]

theorem getD_zero_of_ge (l : List ℚ) {i : Nat} (h : l.length ≤ i) :
    l.getD i 0 = 0 := by
  simp [List.getD_eq_getElem?_getD, List.getElem?_eq_none h]

theorem removeFirst_length {e : ℚ × Nat} :
    ∀ {l : List (ℚ × Nat)}, e ∈ l → (removeFirst e l).length + 1 = l.length
  | x :: xs, h => by
    by_cases hx : x = e
    · simp [removeFirst, hx]
    · have hm : e ∈ xs := by
        rcases List.mem_cons.mp h with h' | h'
        · exact absurd h'.symm hx
        · exact h'
      simp only [removeFirst, if_neg hx, List.length_cons]
      rw [← removeFirst_length hm]

theorem removeFirst_subset {e : ℚ × Nat} :
    ∀ {l : List (ℚ × Nat)} {x}, x ∈ removeFirst e l → x ∈ l
  | y :: ys, x, h => by
    by_cases hy : y = e
    · simp only [removeFirst, if_pos hy] at h
      exact List.mem_cons_of_mem _ h
    · simp only [removeFirst, if_neg hy, List.mem_cons] at h
      rcases h with h | h
      · exact h ▸ List.mem_cons_self _ _
      · exact List.mem_cons_of_mem _ (removeFirst_subset h)

theorem removeFirst_mem_of_ne {e : ℚ × Nat} :
    ∀ {l : List (ℚ × Nat)} {x}, x ∈ l → x ≠ e → x ∈ removeFirst e l
  | y :: ys, x, hx, hne => by
    by_cases hy : y = e
    · simp only [removeFirst, if_pos hy]
      rcases List.mem_cons.mp hx with h | h
      · exact absurd (h.trans hy) hne
      · exact h
    · simp only [removeFirst, if_neg hy, List.mem_cons]
      rcases List.mem_cons.mp hx with h | h
      · exact Or.inl h
      · exact Or.inr (removeFirst_mem_of_ne h hne)

theorem maxEntry_mem (e : ℚ × Nat) :
    ∀ (l : List (ℚ × Nat)), maxEntry e l = e ∨ maxEntry e l ∈ l
  | [] => Or.inl rfl
  | x :: xs => by
    simp only [maxEntry]
    by_cases h : entryLt e x
    · rw [if_pos h]
      rcases maxEntry_mem x xs with h' | h'
      · exact Or.inr (by rw [h']; exact List.mem_cons_self _ _)
      · exact Or.inr (List.mem_cons_of_mem _ h')
    · rw [if_neg h]
      rcases maxEntry_mem e xs with h' | h'
      · exact Or.inl h'
      · exact Or.inr (List.mem_cons_of_mem _ h')

theorem popMax_eq_some {l : List (ℚ × Nat)} {e : ℚ × Nat} {rest : List (ℚ × Nat)}
    (h : popMax l = some (e, rest)) : e ∈ l ∧ rest = removeFirst e l := by
  match l, h with
  | x :: xs, h =>
    simp only [popMax, Option.some.injEq, Prod.mk.injEq] at h
    obtain ⟨he, hr⟩ := h
    constructor
    · rw [← he]
      rcases maxEntry_mem x xs with h' | h'
      · rw [h']
        exact List.mem_cons_self _ _
      · exact List.mem_cons_of_mem _ h'
    · rw [← hr, ← he]

theorem popMax_eq_none {l : List (ℚ × Nat)} (h : popMax l = none) : l = [] := by
  cases l with
  | nil => rfl
  | cons x xs => simp [popMax] at h

/-- Setting one previously-zero slot nonzero lowers by one the count of zero
slots among a duplicate-free index list containing it. -/
theorem filter_length_set {P P' : Nat → Bool} {j : Nat} :
    ∀ {l : List Nat}, l.Nodup → j ∈ l → (∀ k, k ≠ j → P' k = P k) →
      P j = true → P' j = false →
      (l.filter P').length + 1 = (l.filter P).length
  | x :: xs, hnd, hj, hagree, hPj, hP'j => by
    have hnd' := (List.nodup_cons.mp hnd).2
    have hx := (List.nodup_cons.mp hnd).1
    rcases List.mem_cons.mp hj with rfl | hjx
    · have hall : xs.filter P' = xs.filter P := by
        apply List.filter_congr
        intro k hk
        exact hagree k (fun hkj => hx (hkj ▸ hk))
      simp [List.filter_cons, hPj, hP'j, hall]
    · have hxe : P' x = P x := hagree x (fun hxj => hx (hxj ▸ hjx))
      cases hPx : P x with
      | true =>
        rw [List.filter_cons_of_pos (hxe.trans hPx), List.filter_cons_of_pos hPx,
          List.length_cons, List.length_cons,
          ← filter_length_set hnd' hjx hagree hPj hP'j]
      | false =>
        rw [List.filter_cons_of_neg (by simp [hxe, hPx]),
          List.filter_cons_of_neg (by simp [hPx])]
        exact filter_length_set hnd' hjx hagree hPj hP'j

/-! ## The ticker text order -/

theorem charsLt_irrefl : ∀ l : List Char, charsLt l l = false
  | [] => rfl
  | a :: as => by simp [charsLt, charsLt_irrefl as]

theorem charsLt_cons_iff {a b : Char} {as bs : List Char} :
    charsLt (a :: as) (b :: bs) = true ↔
      a.toNat < b.toNat ∨ (a.toNat = b.toNat ∧ charsLt as bs = true) := by
  simp only [charsLt]
  by_cases h1 : a.toNat < b.toNat
  · simp [h1]
  · rw [if_neg h1]
    by_cases h2 : b.toNat < a.toNat
    · rw [if_pos h2]
      simp only [Bool.false_eq_true, false_iff]
      rintro (h | ⟨h, _⟩) <;> omega
    · have he : a.toNat = b.toNat := by omega
      simp [if_neg h2, he, h1]

theorem charsLt_trans :
    ∀ {a b c : List Char}, charsLt a b = true → charsLt b c = true → charsLt a c = true
  | [], _ :: _, [], _, hbc => by simp [charsLt] at hbc
  | [], _ :: _, _ :: _, _, _ => rfl
  | [], [], _, hab, _ => by simp [charsLt] at hab
  | _ :: _, [], _, hab, _ => by simp [charsLt] at hab
  | _ :: _, _ :: _, [], _, hbc => by simp [charsLt] at hbc
  | a :: as, b :: bs, c :: cs, hab, hbc => by
    rw [charsLt_cons_iff] at hab hbc ⊢
    rcases hab with hab | ⟨hab, hab'⟩ <;> rcases hbc with hbc | ⟨hbc, hbc'⟩
    · exact Or.inl (Nat.lt_trans hab hbc)
    · exact Or.inl (hbc ▸ hab)
    · exact Or.inl (hab ▸ hbc)
    · exact Or.inr ⟨hab.trans hbc, charsLt_trans hab' hbc'⟩

theorem charsLt_conn :
    ∀ {a b : List Char}, charsLt a b = false → charsLt b a = false → a = b
  | [], [], _, _ => rfl
  | [], _ :: _, hab, _ => by simp [charsLt] at hab
  | _ :: _, [], _, hba => by simp [charsLt] at hba
  | a :: as, b :: bs, hab, hba => by
    simp only [charsLt] at hab hba
    have hval : a.toNat = b.toNat := by
      by_cases h1 : a.toNat < b.toNat
      · rw [if_pos h1] at hab
        exact absurd hab (by simp)
      · by_cases h2 : b.toNat < a.toNat
        · rw [if_pos h2] at hba
          exact absurd hba (by simp)
        · omega
    have hchar : a = b := by
      apply Char.eq_of_val_eq
      apply UInt32.eq_of_val_eq
      exact Fin.ext hval
    subst hchar
    rw [if_neg (lt_irrefl _), if_neg (lt_irrefl _)] at hab hba
    rw [charsLt_conn hab hba]

theorem string_eq_of_data_eq {s t : String} (h : s.data = t.data) : s = t :=
  String.ext h

theorem tickerDateLe_total (a b : Trade) : tickerDateLe a b ∨ tickerDateLe b a := by
  unfold tickerDateLe
  cases hab : charsLt a.ticker.data b.ticker.data with
  | true => exact Or.inl (Or.inl rfl)
  | false =>
    cases hba : charsLt b.ticker.data a.ticker.data with
    | true => exact Or.inr (Or.inl rfl)
    | false =>
      have he : a.ticker = b.ticker := string_eq_of_data_eq (charsLt_conn hab hba)
      rcases Nat.le_total a.date b.date with h | h
      · exact Or.inl (Or.inr ⟨he, h⟩)
      · exact Or.inr (Or.inr ⟨he.symm, h⟩)

theorem tickerDateLe_trans {a b c : Trade}
    (hab : tickerDateLe a b) (hbc : tickerDateLe b c) : tickerDateLe a c := by
  unfold tickerDateLe at *
  rcases hab with hab | ⟨hab, hab'⟩ <;> rcases hbc with hbc | ⟨hbc, hbc'⟩
  · exact Or.inl (charsLt_trans hab hbc)
  · exact Or.inl (hbc ▸ hab)
  · exact Or.inl (hab ▸ hbc)
  · exact Or.inr ⟨hab.trans hbc, hab'.trans hbc'⟩

theorem dateLe_total (a b : Trade) : dateLe a b ∨ dateLe b a := Nat.le_total a.date b.date

theorem dateLe_trans {a b c : Trade} (hab : dateLe a b) (hbc : dateLe b c) : dateLe a c :=
  Nat.le_trans hab hbc

/-! ## The stable sort -/

theorem mem_insertBy (le : Trade → Trade → Prop) [DecidableRel le] (x y : Trade) :
    ∀ (l : List Trade), y ∈ insertBy le x l ↔ y = x ∨ y ∈ l
  | [] => by simp [insertBy]
  | z :: zs => by
    simp only [insertBy]
    by_cases h : le z x
    · rw [if_pos h]
      simp only [List.mem_cons, mem_insertBy le x y zs]
      tauto
    · rw [if_neg h]
      simp only [List.mem_cons]

theorem mem_sortBy (le : Trade → Trade → Prop) [DecidableRel le] (y : Trade) :
    ∀ (l : List Trade), y ∈ sortBy le l ↔ y ∈ l
  | [] => Iff.rfl
  | x :: xs => by
    simp only [sortBy, mem_insertBy, List.mem_cons, mem_sortBy le y xs]

theorem pairwise_insertBy {le : Trade → Trade → Prop} [DecidableRel le]
    (htot : ∀ a b, le a b ∨ le b a) (htr : ∀ {a b c}, le a b → le b c → le a c)
    (x : Trade) :
    ∀ {l : List Trade}, l.Pairwise le → (insertBy le x l).Pairwise le
  | [], _ => List.pairwise_singleton le x
  | y :: ys, hp => by
    obtain ⟨hy, hys⟩ := List.pairwise_cons.mp hp
    simp only [insertBy]
    by_cases h : le y x
    · rw [if_pos h]
      refine List.pairwise_cons.mpr ⟨?_, pairwise_insertBy htot htr x hys⟩
      intro z hz
      rcases (mem_insertBy le x z ys).mp hz with rfl | hz'
      · exact h
      · exact hy z hz'
    · rw [if_neg h]
      have hxy : le x y := (htot x y).resolve_right (fun h' => h h')
      refine List.pairwise_cons.mpr ⟨?_, hp⟩
      intro z hz
      rcases List.mem_cons.mp hz with rfl | hz'
      · exact hxy
      · exact htr hxy (hy z hz')

theorem pairwise_sortBy {le : Trade → Trade → Prop} [DecidableRel le]
    (htot : ∀ a b, le a b ∨ le b a) (htr : ∀ {a b c}, le a b → le b c → le a c) :
    ∀ (l : List Trade), (sortBy le l).Pairwise le
  | [] => List.Pairwise.nil
  | x :: xs => pairwise_insertBy htot htr x (pairwise_sortBy htot htr xs)

/-! ## The matching loop -/

theorem matchLoop_dates (d : Nat) (tq sp sf : ℚ) :
    ∀ (lots : List Lot) (r rem : ℚ),
      (matchLoop d tq sp sf lots r rem).2.2.map (fun lot => lot.date) =
        lots.map (fun lot => lot.date)
  | [], _, _ => rfl
  | lot :: rest, r, rem => by
    simp only [matchLoop]
    by_cases h1 : rem ≤ 0
    · rw [if_pos h1]
    · rw [if_neg h1]
      by_cases h2 : lot.remaining ≤ 0
      · rw [if_pos h2]
        simp only [List.map_cons, List.cons.injEq, true_and]
        exact matchLoop_dates d tq sp sf rest r rem
      · rw [if_neg h2]
        by_cases h3 : d < lot.date
        · rw [if_pos h3]
        · rw [if_neg h3]
          simp only [List.map_cons, List.cons.injEq, true_and]
          exact matchLoop_dates d tq sp sf rest _ _

theorem matchLoop_length (d : Nat) (tq sp sf : ℚ) (lots : List Lot) (r rem : ℚ) :
    (matchLoop d tq sp sf lots r rem).2.2.length = lots.length := by
  have h := matchLoop_dates d tq sp sf lots r rem
  have := congrArg List.length h
  simpa using this

theorem any_date_congr (d : Nat) :
    ∀ (l l' : List Lot), l.map (fun lot => lot.date) = l'.map (fun lot => lot.date) →
      (l.any fun lot => decide (lot.date ≤ d)) = (l'.any fun lot => decide (lot.date ≤ d))
  | [], [], _ => rfl
  | x :: xs, y :: ys, h => by
    simp only [List.map_cons, List.cons.injEq] at h
    simp only [List.any_cons, h.1, any_date_congr d xs ys h.2]
  | [], _ :: _, h => by simp at h
  | _ :: _, [], h => by simp at h

theorem eligibleRemaining_nonneg {lots : List Lot} (hn : ∀ lot ∈ lots, 0 ≤ lot.remaining)
    (d : Nat) : 0 ≤ eligibleRemaining lots d := by
  apply List.sum_nonneg
  intro x hx
  simp only [List.mem_map] at hx
  obtain ⟨lot, hlot, rfl⟩ := hx
  exact hn lot (List.mem_of_mem_filter hlot)

theorem eligibleRemaining_cons_of_le {lot : Lot} {d : Nat} (h : lot.date ≤ d)
    (rest : List Lot) :
    eligibleRemaining (lot :: rest) d = lot.remaining + eligibleRemaining rest d := by
  simp [eligibleRemaining, List.filter_cons, h]

theorem eligibleRemaining_cons_of_gt {lot : Lot} {d : Nat} (h : d < lot.date)
    (rest : List Lot) :
    eligibleRemaining (lot :: rest) d = eligibleRemaining rest d := by
  simp [eligibleRemaining, List.filter_cons, Nat.not_le.mpr h]

theorem eligibleRemaining_nil_of_sorted_gt {lot : Lot} {rest : List Lot} {d : Nat}
    (hs : (lot :: rest).Pairwise fun a b : Lot => a.date ≤ b.date) (h : d < lot.date) :
    eligibleRemaining (lot :: rest) d = 0 := by
  have hall : ∀ x ∈ lot :: rest, ¬(x.date ≤ d) := by
    intro x hx
    rcases List.mem_cons.mp hx with rfl | hx'
    · omega
    · have := (List.pairwise_cons.mp hs).1 x hx'
      omega
  have : (lot :: rest).filter (fun lot => decide (lot.date ≤ d)) = [] := by
    apply List.filter_eq_nil_iff.mpr
    intro x hx
    simp [hall x hx]
  simp [eligibleRemaining, this]

/-- On a date-sorted lot list with nonnegative remaining quantities, the loop
fills exactly `min remaining (eligible remaining)` and leaves the rest of the
sell quantity unfilled. -/
theorem matchLoop_remaining (d : Nat) (tq sp sf : ℚ) :
    ∀ (lots : List Lot), lots.Pairwise (fun a b : Lot => a.date ≤ b.date) →
      (∀ lot ∈ lots, 0 ≤ lot.remaining) → ∀ (r rem : ℚ), 0 ≤ rem →
      (matchLoop d tq sp sf lots r rem).2.1 = rem - min rem (eligibleRemaining lots d)
  | [], _, _, r, rem, hrem => by
    simp [matchLoop, eligibleRemaining, min_eq_right hrem]
  | lot :: rest, hs, hn, r, rem, hrem => by
    have hs' := (List.pairwise_cons.mp hs).2
    have hn' : ∀ l ∈ rest, 0 ≤ l.remaining := fun l hl => hn l (List.mem_cons_of_mem _ hl)
    have hE : 0 ≤ eligibleRemaining (lot :: rest) d := eligibleRemaining_nonneg hn d
    have hErest : 0 ≤ eligibleRemaining rest d := eligibleRemaining_nonneg hn' d
    simp only [matchLoop]
    by_cases h1 : rem ≤ 0
    · have hrem0 : rem = 0 := le_antisymm h1 hrem
      rw [if_pos h1, hrem0]
      simp [min_eq_left hE]
    · rw [if_neg h1]
      by_cases h2 : lot.remaining ≤ 0
      · rw [if_pos h2]
        have hl0 : lot.remaining = 0 := le_antisymm h2 (hn lot (List.mem_cons_self _ _))
        have hEe : eligibleRemaining (lot :: rest) d = eligibleRemaining rest d := by
          by_cases hd : lot.date ≤ d
          · rw [eligibleRemaining_cons_of_le hd, hl0, zero_add]
          · exact eligibleRemaining_cons_of_gt (Nat.not_le.mp hd) rest
        rw [matchLoop_remaining d tq sp sf rest hs' hn' r rem hrem, hEe]
      · rw [if_neg h2]
        by_cases h3 : d < lot.date
        · rw [if_pos h3]
          rw [eligibleRemaining_nil_of_sorted_gt hs h3]
          simp [min_eq_right hrem]
        · rw [if_neg h3]
          have hdle : lot.date ≤ d := Nat.not_lt.mp h3
          have hlpos : 0 < lot.remaining := lt_of_not_le h2
          have hrpos : 0 < rem := lt_of_not_le h1
          rw [eligibleRemaining_cons_of_le hdle]
          by_cases h4 : rem < lot.remaining
          · rw [if_pos h4]
            have := matchLoop_remaining d tq sp sf rest hs' hn'
              (r + (sp * rem - (if tq = 0 then 0 else sf * (rem / tq)) -
                (lot.price * rem + (if lot.originalQty = 0 then 0
                  else lot.fees * (rem / lot.originalQty))))) (rem - rem) (by linarith)
            simp only at this ⊢
            rw [this]
            have hminr : min (rem - rem) (eligibleRemaining rest d) = rem - rem := by
              rw [sub_self]
              exact min_eq_left hErest
            have hmin2 : min rem (lot.remaining + eligibleRemaining rest d) = rem :=
              min_eq_left (by linarith)
            rw [hminr, hmin2]
            ring
          · rw [if_neg h4]
            have hle : lot.remaining ≤ rem := le_of_not_lt h4
            have := matchLoop_remaining d tq sp sf rest hs' hn'
              (r + (sp * lot.remaining - (if tq = 0 then 0 else sf * (lot.remaining / tq)) -
                (lot.price * lot.remaining + (if lot.originalQty = 0 then 0
                  else lot.fees * (lot.remaining / lot.originalQty)))))
              (rem - lot.remaining) (by linarith)
            simp only at this ⊢
            rw [this]
            rcases le_total (rem - lot.remaining) (eligibleRemaining rest d) with h5 | h5
            · rw [min_eq_left h5,
                min_eq_left (by linarith : rem ≤ lot.remaining + eligibleRemaining rest d)]
              ring
            · rw [min_eq_right h5,
                min_eq_right (by linarith : lot.remaining + eligibleRemaining rest d ≤ rem)]
              ring

theorem matchLoop_nonpos (d : Nat) (tq sp sf : ℚ) (lots : List Lot) (r : ℚ) {rem : ℚ}
    (h : rem ≤ 0) : (matchLoop d tq sp sf lots r rem).2.1 = rem := by
  cases lots with
  | nil => rfl
  | cons lot rest => simp [matchLoop, if_pos h]

/-- C6: on a date-ordered lot list, `match_sell_against_lots` succeeds exactly
when the remaining quantity of the lots dated on or before the sell date
covers the sell quantity; when the sell is left unfilled, it fails with
`InsufficientLots` if some lot dated on or before the sell date exists and
with `NoEligibleLots` otherwise. -/
theorem matchSell_error_taxonomy :
    ∀ (ticker : String) (lots : List Lot) (d : Nat) (qty price fees : ℚ),
      lots.Pairwise (fun a b : Lot => a.date ≤ b.date) →
      (∀ lot ∈ lots, 0 ≤ lot.remaining) →
      ((∃ gain lots', matchSellAgainstLots ticker lots d qty price fees = .ok (gain, lots')) ↔
        qty ≤ eligibleRemaining lots d) ∧
      (¬ qty ≤ eligibleRemaining lots d →
        matchSellAgainstLots ticker lots d qty price fees =
          .error (if lots.any fun lot => decide (lot.date ≤ d) then
            .insufficientLots ticker d else .noEligibleLots ticker d)) := by
  intro ticker lots d qty price fees hs hn
  have hE : 0 ≤ eligibleRemaining lots d := eligibleRemaining_nonneg hn d
  by_cases hq0 : qty = 0
  · constructor
    · rw [iff_iff_implies_and_implies]
      refine ⟨fun _ => hq0 ▸ hE, fun _ => ?_⟩
      exact ⟨0, lots, by simp [matchSellAgainstLots, hq0]⟩
    · intro hcov
      exact absurd (hq0 ▸ hE) hcov
  · rcases lt_trichotomy qty 0 with hqneg | hq0' | hqpos
    · have hrem := matchLoop_nonpos d qty price fees lots 0 (le_of_lt hqneg)
      have hok : matchSellAgainstLots ticker lots d qty price fees =
          .ok ((matchLoop d qty price fees lots 0 qty).1,
            (matchLoop d qty price fees lots 0 qty).2.2) := by
        simp only [matchSellAgainstLots, if_neg hq0]
        rw [if_neg (by rw [hrem]; exact not_lt.mpr (le_of_lt hqneg))]
      constructor
      · rw [iff_iff_implies_and_implies]
        exact ⟨fun _ => le_trans (le_of_lt hqneg) hE, fun _ => ⟨_, _, hok⟩⟩
      · intro hcov
        exact absurd (le_trans (le_of_lt hqneg) hE) hcov
    · exact absurd hq0' hq0
    · have hrem := matchLoop_remaining d qty price fees lots hs hn 0 qty (le_of_lt hqpos)
      by_cases hcov : qty ≤ eligibleRemaining lots d
      · have hz : (matchLoop d qty price fees lots 0 qty).2.1 = 0 := by
          rw [hrem, min_eq_left hcov, sub_self]
        have hok : matchSellAgainstLots ticker lots d qty price fees =
            .ok ((matchLoop d qty price fees lots 0 qty).1,
              (matchLoop d qty price fees lots 0 qty).2.2) := by
          simp only [matchSellAgainstLots, if_neg hq0]
          rw [if_neg (by rw [hz]; exact lt_irrefl 0)]
        constructor
        · rw [iff_iff_implies_and_implies]
          exact ⟨fun _ => hcov, fun _ => ⟨_, _, hok⟩⟩
        · intro h
          exact absurd hcov h
      · have hlt : eligibleRemaining lots d < qty := lt_of_not_le hcov
        have hpos : 0 < (matchLoop d qty price fees lots 0 qty).2.1 := by
          rw [hrem, min_eq_right (le_of_lt hlt)]
          linarith
        have hany : ((matchLoop d qty price fees lots 0 qty).2.2.any fun lot =>
            decide (lot.date ≤ d)) = (lots.any fun lot => decide (lot.date ≤ d)) :=
          any_date_congr d _ _ (matchLoop_dates d qty price fees lots 0 qty)
        have herr : matchSellAgainstLots ticker lots d qty price fees =
            .error (if lots.any fun lot => decide (lot.date ≤ d) then
              .insufficientLots ticker d else .noEligibleLots ticker d) := by
          simp only [matchSellAgainstLots, if_neg hq0]
          rw [if_pos hpos, hany]
          by_cases ha : (lots.any fun lot => decide (lot.date ≤ d)) = true
          · rw [if_pos ha, if_pos ha]
          · rw [if_neg ha, if_neg ha]
        refine ⟨?_, fun _ => herr⟩
        rw [iff_iff_implies_and_implies]
        constructor
        · rintro ⟨gain, lots', hok⟩
          rw [herr] at hok
          exact absurd hok (by simp)
        · intro h
          exact absurd h hcov

/-- C6 witness: one buy lot of 100 dated 2020-01-01 covers a sell of 80
dated 2025-01-10. -/
theorem matchSell_error_taxonomy_witness :
    ((∃ gain lots', matchSellAgainstLots "ABC" [⟨20200101, 100, 100, 10, 5⟩]
        20250110 80 20 4 = .ok (gain, lots')) ↔
      (80 : ℚ) ≤ eligibleRemaining [⟨20200101, 100, 100, 10, 5⟩] 20250110) ∧
    (¬(80 : ℚ) ≤ eligibleRemaining [⟨20200101, 100, 100, 10, 5⟩] 20250110 →
      matchSellAgainstLots "ABC" [⟨20200101, 100, 100, 10, 5⟩] 20250110 80 20 4 =
        .error (if [(⟨20200101, 100, 100, 10, 5⟩ : Lot)].any fun lot =>
            decide (lot.date ≤ 20250110) then
          .insufficientLots "ABC" 20250110 else .noEligibleLots "ABC" 20250110)) :=
  matchSell_error_taxonomy "ABC" [⟨20200101, 100, 100, 10, 5⟩] 20250110 80 20 4
    (by decide) (by decide)

/-! ## The `realized_gains` loop -/

theorem lookupLots_nil (u : String) : lookupLots [] u = none := rfl

theorem lookupLots_set_self (T : String) (lots : List Lot) :
    ∀ (c : List (String × List Lot)), lookupLots (setLots c T lots) T = some lots
  | [] => by
    simp [setLots, lookupLots, List.find?_cons_of_pos]
  | p :: c => by
    by_cases hp : p.1 = T
    · have : setLots (p :: c) T lots = setLots c T lots := by
        simp [setLots, List.filter_cons, hp]
      rw [this, lookupLots_set_self T lots c]
    · have : setLots (p :: c) T lots = p :: setLots c T lots := by
        simp [setLots, List.filter_cons, hp]
      rw [this]
      have hfind : (p :: setLots c T lots).find? (fun q => decide (q.1 = T)) =
          (setLots c T lots).find? (fun q => decide (q.1 = T)) :=
        List.find?_cons_of_neg _ (by simp [hp])
      simp only [lookupLots, hfind]
      exact lookupLots_set_self T lots c

theorem lookupLots_set_ne {T u : String} (h : u ≠ T) (lots : List Lot) :
    ∀ (c : List (String × List Lot)), lookupLots (setLots c T lots) u = lookupLots c u
  | [] => by
    have : ¬((T, lots).1 = u) := fun hh => h hh.symm
    simp [setLots, lookupLots, List.find?_cons_of_neg, this]
  | p :: c => by
    by_cases hp : p.1 = T
    · have hset : setLots (p :: c) T lots = setLots c T lots := by
        simp [setLots, List.filter_cons, hp]
      have hpu : ¬(p.1 = u) := fun hh => h (hh.symm.trans hp)
      have hfind : (p :: c).find? (fun q => decide (q.1 = u)) =
          c.find? (fun q => decide (q.1 = u)) :=
        List.find?_cons_of_neg _ (by simp [hpu])
      rw [hset, lookupLots_set_ne h lots c]
      simp only [lookupLots, hfind]
    · have hset : setLots (p :: c) T lots = p :: setLots c T lots := by
        simp [setLots, List.filter_cons, hp]
      rw [hset]
      by_cases hpu : p.1 = u
      · simp [lookupLots, List.find?_cons_of_pos, hpu]
      · have h1 : (p :: setLots c T lots).find? (fun q => decide (q.1 = u)) =
            (setLots c T lots).find? (fun q => decide (q.1 = u)) :=
          List.find?_cons_of_neg _ (by simp [hpu])
        have h2 : (p :: c).find? (fun q => decide (q.1 = u)) =
            c.find? (fun q => decide (q.1 = u)) :=
          List.find?_cons_of_neg _ (by simp [hpu])
        simp only [lookupLots, h1, h2]
        exact lookupLots_set_ne h lots c

theorem matchSell_ok_length {ticker : String} {lots : List Lot} {d : Nat}
    {q p f : ℚ} {gl : ℚ × List Lot}
    (h : matchSellAgainstLots ticker lots d q p f = .ok gl) :
    gl.2.length = lots.length := by
  simp only [matchSellAgainstLots] at h
  by_cases hq : q = 0
  · rw [if_pos hq] at h
    cases h
    rfl
  · rw [if_neg hq] at h
    by_cases hr : 0 < (matchLoop d q p f lots 0 q).2.1
    · rw [if_pos hr] at h
      split at h <;> cases h
    · rw [if_neg hr] at h
      cases h
      exact matchLoop_length d q p f lots 0 q

theorem replaySells_length {T : String} :
    ∀ {sells : List SellRecord} {lots lots' : List Lot},
      replaySells T lots sells = .ok lots' → lots'.length = lots.length
  | [], lots, lots', h => by
    cases h
    rfl
  | s :: rest, lots, lots', h => by
    simp only [replaySells] at h
    split at h
    · cases h
    · rename_i gl hgl
      rw [replaySells_length h, matchSell_ok_length hgl]

theorem rgStep_untouched {trades : List Trade} {ys : Nat} {s : RgState} {t : Trade}
    {rows : List RealizedGainRow} {s₂ : RgState}
    (h : rgStep trades ys s t = .ok (rows, s₂)) :
    ∀ u, u ≠ t.ticker →
      lookupLots s₂.lotsCache u = lookupLots s.lotsCache u ∧
      (u ∈ s₂.preConsumed ↔ u ∈ s.preConsumed) := by
  intro u hu
  simp only [rgStep] at h
  by_cases hq : ratAbs t.quantity = 0
  · rw [if_pos hq] at h
    cases h
    exact ⟨rfl, Iff.rfl⟩
  · rw [if_neg hq] at h
    split at h
    · cases h
    · split at h
      · cases h
      · rename_i pl hpl
        split at h
        · cases h
        · rename_i gl hgl
          cases h
          refine ⟨lookupLots_set_ne hu _ _, ?_⟩
          split at hpl
          · cases hpl
            exact Iff.rfl
          · split at hpl
            · cases hpl
            · cases hpl
              simp only [List.mem_append, List.mem_singleton]
              constructor
              · rintro (h' | h')
                · exact h'
                · exact absurd h' hu
              · exact fun h' => Or.inl h'

theorem rgRun_append (trades : List Trade) (ys : Nat) :
    ∀ (l₁ l₂ : List Trade) (s : RgState),
      rgRun trades ys (l₁ ++ l₂) s =
        match rgRun trades ys l₁ s with
        | .error e => .error e
        | .ok r =>
          match rgRun trades ys l₂ r.2 with
          | .error e => .error e
          | .ok r' => .ok (r.1 ++ r'.1, r'.2)
  | [], l₂, s => by
    simp only [List.nil_append, rgRun]
    cases rgRun trades ys l₂ s with
    | error e => rfl
    | ok r => simp
  | t :: ts, l₂, s => by
    simp only [List.cons_append, rgRun]
    cases rgStep trades ys s t with
    | error e => rfl
    | ok rs =>
      simp only
      rw [show ts.append l₂ = ts ++ l₂ from rfl, rgRun_append trades ys ts l₂ rs.2]
      cases rgRun trades ys ts rs.2 with
      | error e => rfl
      | ok r =>
        simp only
        cases rgRun trades ys l₂ r.2 with
        | error e => rfl
        | ok r' => simp

theorem rgStep_agree {trades : List Trade} {ys : Nat} (t : Trade) {s s' : RgState}
    (U : String → Prop) (ht : U t.ticker)
    (hU : ∀ u, U u → lookupLots s.lotsCache u = lookupLots s'.lotsCache u ∧
      (u ∈ s.preConsumed ↔ u ∈ s'.preConsumed)) :
    (∃ e, rgStep trades ys s t = .error e ∧ rgStep trades ys s' t = .error e) ∨
    (∃ rows s₂ s₂', rgStep trades ys s t = .ok (rows, s₂) ∧
      rgStep trades ys s' t = .ok (rows, s₂') ∧
      ∀ u, U u → lookupLots s₂.lotsCache u = lookupLots s₂'.lotsCache u ∧
        (u ∈ s₂.preConsumed ↔ u ∈ s₂'.preConsumed)) := by
  obtain ⟨hlk, hpre⟩ := hU t.ticker ht
  simp only [rgStep]
  by_cases hq : ratAbs t.quantity = 0
  · rw [if_pos hq, if_pos hq]
    exact Or.inr ⟨_, s, s', rfl, rfl, hU⟩
  · rw [if_neg hq, if_neg hq, ← hlk]
    generalize (match lookupLots s.lotsCache t.ticker with
      | some l => l
      | none => loadBuyLots trades t.ticker) = L
    by_cases hemp : L.isEmpty
    · rw [if_pos hemp, if_pos hemp]
      exact Or.inl ⟨_, rfl, rfl⟩
    · rw [if_neg hemp, if_neg hemp]
      by_cases hmem : t.ticker ∈ s.preConsumed
      · have hmem' : t.ticker ∈ s'.preConsumed := hpre.mp hmem
        rw [if_pos hmem, if_pos hmem']
        cases hms : matchSellAgainstLots t.ticker L t.date (ratAbs t.quantity)
            t.price t.fees with
        | error e =>
          simp only [hms]
          exact Or.inl ⟨e, rfl, rfl⟩
        | ok gl =>
          simp only [hms]
          refine Or.inr ⟨_, _, _, rfl, rfl, ?_⟩
          intro u hu
          obtain ⟨hlu, hpu⟩ := hU u hu
          by_cases huT : u = t.ticker
          · subst huT
            exact ⟨by rw [lookupLots_set_self, lookupLots_set_self], hpre⟩
          · exact ⟨by rw [lookupLots_set_ne huT, lookupLots_set_ne huT, hlu], hpu⟩
      · have hmem' : t.ticker ∉ s'.preConsumed := fun h => hmem (hpre.mpr h)
        rw [if_neg hmem, if_neg hmem']
        cases hrep : replaySells t.ticker L (loadSellsBefore trades t.ticker ys) with
        | error e =>
          simp only [hrep]
          exact Or.inl ⟨e, rfl, rfl⟩
        | ok lots' =>
          simp only [hrep]
          cases hms : matchSellAgainstLots t.ticker lots' t.date (ratAbs t.quantity)
              t.price t.fees with
          | error e =>
            simp only [hms]
            exact Or.inl ⟨e, rfl, rfl⟩
          | ok gl =>
            simp only [hms]
            refine Or.inr ⟨_, _, _, rfl, rfl, ?_⟩
            intro u hu
            obtain ⟨hlu, hpu⟩ := hU u hu
            refine ⟨?_, ?_⟩
            · by_cases huT : u = t.ticker
              · subst huT
                rw [lookupLots_set_self, lookupLots_set_self]
              · rw [lookupLots_set_ne huT, lookupLots_set_ne huT, hlu]
            · simp only [List.mem_append, List.mem_singleton]
              exact or_congr hpu Iff.rfl

theorem rgRun_agree {trades : List Trade} {ys : Nat} (U : String → Prop) :
    ∀ (ts : List Trade) {s s' : RgState}, (∀ t ∈ ts, U t.ticker) →
      (∀ u, U u → lookupLots s.lotsCache u = lookupLots s'.lotsCache u ∧
        (u ∈ s.preConsumed ↔ u ∈ s'.preConsumed)) →
      rgResult (rgRun trades ys ts s) = rgResult (rgRun trades ys ts s')
  | [], s, s', _, _ => rfl
  | t :: ts, s, s', hts, hU => by
    simp only [rgRun]
    rcases rgStep_agree t U (hts t (List.mem_cons_self _ _)) hU with
      ⟨e, h1, h2⟩ | ⟨rows, s₂, s₂', h1, h2, hU₂⟩
    · rw [h1, h2]
    · rw [h1, h2]
      have ih := @rgRun_agree trades ys U ts s₂ s₂' (fun u hu => hts u (List.mem_cons_of_mem _ hu)) hU₂
      simp only
      cases hr : rgRun trades ys ts s₂ with
      | error e =>
        cases hr' : rgRun trades ys ts s₂' with
        | error e' =>
          rw [hr, hr'] at ih
          cases ih
          rfl
        | ok r' =>
          rw [hr, hr'] at ih
          cases ih
      | ok r =>
        cases hr' : rgRun trades ys ts s₂' with
        | error e' =>
          rw [hr, hr'] at ih
          cases ih
        | ok r' =>
          rw [hr, hr'] at ih
          simp only [rgResult, Except.ok.injEq] at ih
          simp [rgResult, ih]

theorem rgRun_untouched {trades : List Trade} {ys : Nat} :
    ∀ (ts : List Trade) {s : RgState} {r : List RealizedGainRow × RgState},
      rgRun trades ys ts s = .ok r →
      ∀ u, u ∉ ts.map (fun t => t.ticker) →
        lookupLots r.2.lotsCache u = lookupLots s.lotsCache u ∧
        (u ∈ r.2.preConsumed ↔ u ∈ s.preConsumed)
  | [], s, r, h, u, _ => by
    cases h
    exact ⟨rfl, Iff.rfl⟩
  | t :: ts, s, r, h, u, hu => by
    simp only [List.map_cons, List.mem_cons, not_or] at hu
    simp only [rgRun] at h
    split at h
    · cases h
    · rename_i rs hstep
      split at h
      · cases h
      · rename_i r' hrun
        cases h
        have h1 := rgStep_untouched hstep u hu.1
        have h2 := rgRun_untouched ts hrun u (by simpa using hu.2)
        exact ⟨h2.1.trans h1.1, h2.2.trans h1.2⟩

/-- Within one run of same-ticker sells, the flat loop with its cache and
pre-consumption set agrees with the per-ticker processor whose whole state is
the optional current lot list. -/
theorem rgRun_block {trades : List Trade} {ys : Nat} {T : String} :
    ∀ (b : List Trade), (∀ t ∈ b, t.ticker = T) →
      ∀ (s : RgState) (acc : Option (List Lot)),
      (acc = none → lookupLots s.lotsCache T = none ∧ T ∉ s.preConsumed) →
      (∀ l, acc = some l → lookupLots s.lotsCache T = some l ∧ T ∈ s.preConsumed ∧ l ≠ []) →
      rgResult (rgRun trades ys b s) = ptRun trades ys b acc
  | [], _, s, acc, _, _ => rfl
  | t :: ts, hb, s, acc, hnone, hsome => by
    have htT : t.ticker = T := hb t (List.mem_cons_self _ _)
    have hts : ∀ x ∈ ts, x.ticker = T := fun x hx => hb x (List.mem_cons_of_mem _ hx)
    simp only [rgRun, ptRun, rgStep]
    by_cases hq : ratAbs t.quantity = 0
    · rw [if_pos hq, if_pos hq]
      have ih := @rgRun_block trades ys T ts hts s acc hnone hsome
      simp only
      cases hr : rgRun trades ys ts s with
      | error e =>
        rw [hr] at ih
        rw [← ih]
        rfl
      | ok r =>
        rw [hr] at ih
        rw [← ih]
        rfl
    · rw [if_neg hq, if_neg hq]
      cases acc with
      | none =>
        obtain ⟨hlk, hpre⟩ := hnone rfl
        rw [htT, hlk]
        by_cases hemp : (loadBuyLots trades T).isEmpty
        · rw [if_pos hemp, if_pos hemp]
          rfl
        · rw [if_neg hemp, if_neg hemp, if_neg hpre]
          cases hrep : replaySells T (loadBuyLots trades T)
              (loadSellsBefore trades T ys) with
          | error e =>
            simp only [hrep]
            rfl
          | ok lots' =>
            simp only [hrep]
            cases hms : matchSellAgainstLots T lots' t.date (ratAbs t.quantity)
                t.price t.fees with
            | error e =>
              simp only [hms]
              rfl
            | ok gl =>
              simp only [hms]
              have hlen : gl.2.length = (loadBuyLots trades T).length := by
                rw [matchSell_ok_length hms, replaySells_length hrep]
              have hne : gl.2 ≠ [] := by
                intro hcon
                rw [hcon] at hlen
                have : (loadBuyLots trades T).isEmpty = true :=
                  List.isEmpty_iff.mpr (List.length_eq_zero.mp hlen.symm)
                exact hemp this
              have ih := @rgRun_block trades ys T ts hts
                ⟨setLots s.lotsCache T gl.2, s.preConsumed ++ [T]⟩
                (some gl.2)
                (fun hcon => by cases hcon)
                (fun l hl => by
                  cases hl
                  refine ⟨lookupLots_set_self T gl.2 _, ?_, hne⟩
                  simp)
              cases hr : rgRun trades ys ts
                  ⟨setLots s.lotsCache T gl.2, s.preConsumed ++ [T]⟩ with
              | error e =>
                rw [hr] at ih
                rw [← ih]
                rfl
              | ok r =>
                rw [hr] at ih
                rw [← ih]
                rfl
      | some l =>
        obtain ⟨hlk, hpre, hlne⟩ := hsome l rfl
        rw [htT, hlk]
        have hemp : (l.isEmpty) = false := by
          cases l with
          | nil => exact absurd rfl hlne
          | cons a as => rfl
        rw [if_neg (by rw [hemp]; simp), if_pos hpre]
        cases hms : matchSellAgainstLots T l t.date (ratAbs t.quantity)
            t.price t.fees with
        | error e =>
          simp only [hms]
          rfl
        | ok gl =>
          simp only [hms]
          have hne : gl.2 ≠ [] := by
            intro hcon
            have := matchSell_ok_length hms
            rw [hcon] at this
            exact hlne (List.length_eq_zero.mp this.symm)
          have ih := @rgRun_block trades ys T ts hts
            ⟨setLots s.lotsCache T gl.2, s.preConsumed⟩ (some gl.2)
            (fun hcon => by cases hcon)
            (fun l' hl' => by
              cases hl'
              exact ⟨lookupLots_set_self T gl.2 _, hpre, hne⟩)
          cases hr : rgRun trades ys ts
              ⟨setLots s.lotsCache T gl.2, s.preConsumed⟩ with
          | error e =>
            rw [hr] at ih
            rw [← ih]
            rfl
          | ok r =>
            rw [hr] at ih
            rw [← ih]
            rfl

theorem sorted_dropWhile_ticker_ne :
    ∀ {t : Trade} {ts : List Trade}, (t :: ts).Pairwise tickerDateLe →
      ∀ y ∈ ts.dropWhile fun u => decide (u.ticker = t.ticker), y.ticker ≠ t.ticker
  | _, [], _, y, hy => by simp at hy
  | t, u :: us, hs, y, hy => by
    by_cases hu : u.ticker = t.ticker
    · rw [List.dropWhile_cons_of_pos (by simp [hu])] at hy
      have hs' : (t :: us).Pairwise tickerDateLe := by
        have h1 := List.pairwise_cons.mp hs
        have h2 := List.pairwise_cons.mp h1.2
        exact List.pairwise_cons.mpr
          ⟨fun z hz => h1.1 z (List.mem_cons_of_mem _ hz), h2.2⟩
      exact sorted_dropWhile_ticker_ne hs' y hy
    · rw [List.dropWhile_cons_of_neg (by simp [hu])] at hy
      intro hyt
      rcases List.mem_cons.mp hy with rfl | hyus
      · exact hu hyt
      · have htu : tickerDateLe t u :=
          (List.pairwise_cons.mp hs).1 u (List.mem_cons_self _ _)
        have huy : tickerDateLe u y :=
          (List.pairwise_cons.mp (List.pairwise_cons.mp hs).2).1 y hyus
        rcases htu with htu | ⟨htu, _⟩
        · rcases huy with huy | ⟨huy, _⟩
          · have hcy : charsLt u.ticker.data t.ticker.data = true := by
              rw [← hyt]
              exact huy
            have : charsLt t.ticker.data t.ticker.data = true := charsLt_trans htu hcy
            rw [charsLt_irrefl] at this
            cases this
          · exact hu (huy.trans hyt)
        · exact hu htu.symm

theorem chunkByTicker_cons (t : Trade) (ts : List Trade) :
    chunkByTicker (t :: ts) =
      (t :: ts.takeWhile fun u => decide (u.ticker = t.ticker)) ::
        chunkByTicker (ts.dropWhile fun u => decide (u.ticker = t.ticker)) := by
  rw [chunkByTicker]

/-- The flat `realized_gains` loop computes, ticker block by ticker block,
exactly what the per-ticker processor computes. -/
theorem rg_grouped_aux (trades : List Trade) (ys : Nat) :
    ∀ (n : Nat) (l : List Trade), l.length ≤ n → l.Pairwise tickerDateLe →
      rgResult (rgRun trades ys l ⟨[], []⟩) = runBlocks trades ys (chunkByTicker l)
  | _, [], _, _ => by
    rw [chunkByTicker]
    rfl
  | 0, t :: ts, hlen, _ => by simp at hlen
  | n + 1, t :: ts, hlen, hsort => by
    have hsplit : t :: ts =
        (t :: ts.takeWhile fun u => decide (u.ticker = t.ticker)) ++
          ts.dropWhile fun u => decide (u.ticker = t.ticker) := by
      rw [List.cons_append, List.takeWhile_append_dropWhile]
    have hbT : ∀ x ∈ t :: ts.takeWhile fun u => decide (u.ticker = t.ticker),
        x.ticker = t.ticker := by
      intro x hx
      rcases List.mem_cons.mp hx with rfl | hx'
      · rfl
      · simpa using List.mem_takeWhile_imp hx'
    have hblock := @rgRun_block trades ys t.ticker
      (t :: ts.takeWhile fun u => decide (u.ticker = t.ticker)) hbT
      ⟨[], []⟩ none (fun _ => ⟨rfl, by simp⟩) (fun l hl => by cases hl)
    rw [chunkByTicker_cons]
    simp only [runBlocks]
    conv_lhs => rw [hsplit]
    rw [rgRun_append]
    cases hb : rgRun trades ys
        (t :: ts.takeWhile fun u => decide (u.ticker = t.ticker)) ⟨[], []⟩ with
    | error e =>
      rw [hb] at hblock
      rw [← hblock]
      rfl
    | ok r =>
      rw [hb] at hblock
      rw [← hblock]
      have hdisj := sorted_dropWhile_ticker_ne hsort
      have huntouched := rgRun_untouched
        (t :: ts.takeWhile fun u => decide (u.ticker = t.ticker)) hb
      have hagree := @rgRun_agree trades ys
        (fun u => u ∈ (ts.dropWhile fun u => decide (u.ticker = t.ticker)).map
          fun x => x.ticker)
        (ts.dropWhile fun u => decide (u.ticker = t.ticker)) r.2 ⟨[], []⟩
        (fun x hx => List.mem_map.mpr ⟨x, hx, rfl⟩)
        (by
          intro u hu
          obtain ⟨y, hy, rfl⟩ := List.mem_map.mp hu
          have hnotin : y.ticker ∉
              (t :: ts.takeWhile fun u => decide (u.ticker = t.ticker)).map
                fun x => x.ticker := by
            intro hin
            obtain ⟨x, hx, hxe⟩ := List.mem_map.mp hin
            exact hdisj y hy (hxe ▸ hbT x hx)
          have := huntouched y.ticker hnotin
          exact ⟨this.1, this.2⟩)
      have hrest_sorted : (ts.dropWhile fun u =>
          decide (u.ticker = t.ticker)).Pairwise tickerDateLe :=
        List.Pairwise.sublist
          ((List.dropWhile_sublist _).trans (List.sublist_cons_self _ _)) hsort
      have hrest_len : (ts.dropWhile fun u =>
          decide (u.ticker = t.ticker)).length ≤ n := by
        have h1 : (ts.dropWhile fun u => decide (u.ticker = t.ticker)).length ≤
            ts.length := (List.dropWhile_sublist _).length_le
        simp only [List.length_cons] at hlen
        omega
      have hIH := rg_grouped_aux trades ys n
        (ts.dropWhile fun u => decide (u.ticker = t.ticker)) hrest_len hrest_sorted
      cases hrest : rgRun trades ys
          (ts.dropWhile fun u => decide (u.ticker = t.ticker)) r.2 with
      | error e =>
        cases hrest0 : rgRun trades ys
            (ts.dropWhile fun u => decide (u.ticker = t.ticker)) ⟨[], []⟩ with
        | error e' =>
          rw [hrest, hrest0] at hagree
          simp only [rgResult, Except.error.injEq] at hagree
          subst hagree
          rw [hrest0] at hIH
          rw [← hIH]
          simp [rgResult, hrest]
        | ok r0 =>
          rw [hrest, hrest0] at hagree
          simp [rgResult] at hagree
      | ok r' =>
        cases hrest0 : rgRun trades ys
            (ts.dropWhile fun u => decide (u.ticker = t.ticker)) ⟨[], []⟩ with
        | error e' =>
          rw [hrest, hrest0] at hagree
          simp [rgResult] at hagree
        | ok r0 =>
          rw [hrest, hrest0] at hagree
          simp only [rgResult, Except.ok.injEq] at hagree
          rw [hrest0] at hIH
          rw [← hIH]
          simp [rgResult, hrest, hagree]

theorem rg_eq_grouped (trades : List Trade) (year : Nat) :
    realizedGains trades year = realizedGainsGrouped trades year := by
  have hsort : (yearSellsSorted trades year).Pairwise tickerDateLe :=
    pairwise_sortBy tickerDateLe_total (fun hab hbc => tickerDateLe_trans hab hbc) _
  exact rg_grouped_aux trades (year * 10000 + 101)
    (yearSellsSorted trades year).length (yearSellsSorted trades year) le_rfl hsort

/-- C7: `realized_gains` equals its grouped per-ticker reference form: each
ticker's year sells are processed as one block in which the buy lots are
loaded once at the first matched sell, every sell dated strictly before the
year's start is replayed exactly once, in ascending date order, against that
same lot list — its gain discarded, its reduction of the remaining
quantities kept — and only then are the target year's sells matched. -/
theorem realized_gains_pre_consumption (trades : List Trade) (year : Nat) :
    realizedGains trades year = realizedGainsGrouped trades year :=
  rg_eq_grouped trades year

theorem chunkByTicker_flatten :
    ∀ (n : Nat) (l : List Trade), l.length ≤ n → (chunkByTicker l).flatten = l
  | _, [], _ => by
    rw [chunkByTicker]
    rfl
  | 0, t :: ts, hlen => by simp at hlen
  | n + 1, t :: ts, hlen => by
    rw [chunkByTicker_cons, List.flatten_cons]
    have hrest_len : (ts.dropWhile fun u => decide (u.ticker = t.ticker)).length ≤ n := by
      have h1 : (ts.dropWhile fun u => decide (u.ticker = t.ticker)).length ≤
          ts.length := (List.dropWhile_sublist _).length_le
      simp only [List.length_cons] at hlen
      omega
    rw [chunkByTicker_flatten n _ hrest_len, List.cons_append,
      List.takeWhile_append_dropWhile]

theorem chunkByTicker_same :
    ∀ (n : Nat) (l : List Trade), l.length ≤ n →
      ∀ b ∈ chunkByTicker l, ∀ x ∈ b, ∀ y ∈ b, x.ticker = y.ticker
  | _, [], _ => by
    rw [chunkByTicker]
    intro b hb
    simp at hb
  | 0, t :: ts, hlen => by simp at hlen
  | n + 1, t :: ts, hlen => by
    rw [chunkByTicker_cons]
    intro b hb x hx y hy
    have hrest_len : (ts.dropWhile fun u => decide (u.ticker = t.ticker)).length ≤ n := by
      have h1 : (ts.dropWhile fun u => decide (u.ticker = t.ticker)).length ≤
          ts.length := (List.dropWhile_sublist _).length_le
      simp only [List.length_cons] at hlen
      omega
    rcases List.mem_cons.mp hb with heq | hb'
    · subst heq
      have hall : ∀ z ∈ t :: ts.takeWhile fun u => decide (u.ticker = t.ticker),
          z.ticker = t.ticker := by
        intro z hz
        rcases List.mem_cons.mp hz with rfl | hz'
        · rfl
        · simpa using List.mem_takeWhile_imp hz'
      rw [hall x hx, hall y hy]
    · exact chunkByTicker_same n _ hrest_len b hb' x hx y hy

theorem ptRun_zero_qty (trades : List Trade) (ys : Nat) (t : Trade) (ts : List Trade)
    (acc : Option (List Lot)) (hq : ratAbs t.quantity = 0) :
    ptRun trades ys (t :: ts) acc =
      match ptRun trades ys ts acc with
      | .error e => .error e
      | .ok rows => .ok (⟨t.ticker, t.date, t.currency, 0⟩ :: rows) := by
  simp only [ptRun, if_pos hq]

theorem ptRun_no_lots {trades : List Trade} {ys : Nat} {T : String} :
    ∀ (l : List Trade), (∀ t ∈ l, t.ticker = T) →
      (∃ t ∈ l, ratAbs t.quantity ≠ 0) → loadBuyLots trades T = [] →
      ∃ d, ptRun trades ys l none = .error (.noEligibleLots T d)
  | [], _, hex, _ => by
    obtain ⟨t, ht, _⟩ := hex
    simp at ht
  | t :: ts, hall, hex, hload => by
    have htT : t.ticker = T := hall t (List.mem_cons_self _ _)
    by_cases hq : ratAbs t.quantity = 0
    · have hex' : ∃ x ∈ ts, ratAbs x.quantity ≠ 0 := by
        obtain ⟨x, hx, hxq⟩ := hex
        rcases List.mem_cons.mp hx with rfl | hx'
        · exact absurd hq hxq
        · exact ⟨x, hx', hxq⟩
      obtain ⟨d, hd⟩ := ptRun_no_lots ts
        (fun x hx => hall x (List.mem_cons_of_mem _ hx)) hex' hload
      refine ⟨d, ?_⟩
      rw [ptRun_zero_qty trades ys t ts none hq, hd]
    · refine ⟨t.date, ?_⟩
      simp only [ptRun, if_neg hq, htT, hload]
      rfl

theorem runBlocks_error {trades : List Trade} {ys : Nat} :
    ∀ (bs : List (List Trade)) (b : List Trade), b ∈ bs →
      (∀ rows, ptRun trades ys b none ≠ .ok rows) →
      ∃ e, runBlocks trades ys bs = .error e
  | b' :: bs, b, hb, hfail => by
    rcases List.mem_cons.mp hb with rfl | hb'
    · cases hpt : ptRun trades ys b none with
      | error e => exact ⟨e, by simp [runBlocks, hpt]⟩
      | ok rows => exact absurd hpt (hfail rows)
    · cases hpt : ptRun trades ys b' none with
      | error e => exact ⟨e, by simp [runBlocks, hpt]⟩
      | ok rows =>
        obtain ⟨e, he⟩ := runBlocks_error bs b hb' hfail
        refine ⟨e, ?_⟩
        simp only [runBlocks, hpt, he]

/-- C8 (amended): a ticker with at least one nonzero-quantity sell in the
target year and zero buy lots makes the whole `realized_gains` call fail, its
own block failing with `NoEligibleLots` before producing any row; a sell
with zero quantity emits a zero-gain row and leaves the lot state untouched. -/
theorem realized_gains_no_lots_fails :
    (∀ (trades : List Trade) (year : Nat) (T : String),
      (∃ t ∈ yearSellsSorted trades year, t.ticker = T ∧ ratAbs t.quantity ≠ 0) →
      loadBuyLots trades T = [] →
      (∃ e, realizedGains trades year = .error e) ∧
      ∃ d, ptRun trades (year * 10000 + 101)
          ((yearSellsSorted trades year).filter fun t => decide (t.ticker = T)) none =
        .error (.noEligibleLots T d)) ∧
    (∀ (trades : List Trade) (ys : Nat) (t : Trade) (ts : List Trade)
        (acc : Option (List Lot)), ratAbs t.quantity = 0 →
      ptRun trades ys (t :: ts) acc =
        match ptRun trades ys ts acc with
        | .error e => .error e
        | .ok rows => .ok (⟨t.ticker, t.date, t.currency, 0⟩ :: rows)) := by
  constructor
  · intro trades year T hex hload
    obtain ⟨t₀, ht₀, ht₀T, ht₀q⟩ := hex
    constructor
    · obtain ⟨b, hbmem, hbt⟩ := by
        have hjoin := chunkByTicker_flatten (yearSellsSorted trades year).length
          (yearSellsSorted trades year) le_rfl
        have : t₀ ∈ (chunkByTicker (yearSellsSorted trades year)).flatten := by
          rw [hjoin]
          exact ht₀
        exact List.mem_flatten.mp this
      have hsame := chunkByTicker_same (yearSellsSorted trades year).length
        (yearSellsSorted trades year) le_rfl b hbmem
      have hallT : ∀ x ∈ b, x.ticker = T := fun x hx => (hsame x hx t₀ hbt).trans ht₀T
      obtain ⟨d, hd⟩ := ptRun_no_lots b hallT ⟨t₀, hbt, ht₀q⟩ hload
      obtain ⟨e, he⟩ := runBlocks_error (chunkByTicker (yearSellsSorted trades year))
        b hbmem (fun rows hok => by rw [hd] at hok; cases hok)
      refine ⟨e, ?_⟩
      rw [rg_eq_grouped]
      exact he
    · apply ptRun_no_lots
      · intro x hx
        simpa using (List.mem_filter.mp hx).2
      · exact ⟨t₀, List.mem_filter.mpr ⟨ht₀, by simp [ht₀T]⟩, ht₀q⟩
      · exact hload
  · intro trades ys t ts acc hq
    exact ptRun_zero_qty trades ys t ts acc hq

/-- C8 counterexample: a ticker whose only target-year sell has zero quantity
and which has no buy lots does not make `realized_gains` fail — a zero-gain
row is emitted instead. -/
theorem realized_gains_zero_qty_no_lots_ok :
    loadBuyLots zeroQtySellTrades "XYZ" = [] ∧
    yearSellsSorted zeroQtySellTrades 2025 = [⟨20250301, "XYZ", 0, 30, 1, .sell, "USD"⟩] ∧
    realizedGains zeroQtySellTrades 2025 = .ok [⟨"XYZ", 20250301, "USD", 0⟩] :=
  ⟨by decide, by decide, by decide⟩

/-- C3: the FIFO matching example — buys of 100 @ 10 (fees 5, 2020-01-01)
and 50 @ 15 (fees 2, 2021-06-01); selling 80 @ 20 (fees 4) on 2025-01-10 and
then 50 @ 25 (fees 5) on 2025-06-15 in year 2025 realizes 792 and then
592.8, the first sell consuming the older lot down to 20 and the second
consuming those 20 before touching the younger lot. -/
theorem fifo_matching_example :
    realizedGains fifoTrades 2025 =
      .ok [⟨"ABC", 20250110, "USD", 792⟩, ⟨"ABC", 20250615, "USD", 592.8⟩] ∧
    matchSellAgainstLots "ABC"
      [⟨20200101, 100, 100, 10, 5⟩, ⟨20210601, 50, 50, 15, 2⟩] 20250110 80 20 4 =
      .ok (792, [⟨20200101, 20, 100, 10, 5⟩, ⟨20210601, 50, 50, 15, 2⟩]) ∧
    matchSellAgainstLots "ABC"
      [⟨20200101, 20, 100, 10, 5⟩, ⟨20210601, 50, 50, 15, 2⟩] 20250615 50 25 5 =
      .ok (592.8, [⟨20200101, 0, 100, 10, 5⟩, ⟨20210601, 20, 50, 15, 2⟩]) :=
  ⟨by decide, by decide, by decide⟩

/-! ## Generic list-slot helpers -/

theorem getDg_set_self {α : Type} (l : List α) {i : Nat} (h : i < l.length) (v d : α) :
    (l.set i v).getD i d = v := by
  simp [List.getD_eq_getElem?_getD, List.getElem?_set_self h]

theorem getDg_set_ne {α : Type} (l : List α) {i j : Nat} (h : i ≠ j) (v d : α) :
    (l.set i v).getD j d = l.getD j d := by
  simp [List.getD_eq_getElem?_getD, List.getElem?_set_ne h]

theorem getDg_of_ge {α : Type} (l : List α) {i : Nat} (h : l.length ≤ i) (d : α) :
    l.getD i d = d := by
  simp [List.getD_eq_getElem?_getD, List.getElem?_eq_none h]

theorem getD_mem_of_lt {α : Type} (l : List α) {i : Nat} (h : i < l.length) (d : α) :
    l.getD i d ∈ l := by
  rw [List.getD_eq_getElem?_getD, List.getElem?_eq_getElem h]
  exact List.getElem_mem h

theorem replicate_zero_getD (n i : Nat) : (List.replicate n (0 : ℚ)).getD i 0 = 0 := by
  rcases Nat.lt_or_ge i n with h | h
  · rw [List.getD_eq_getElem?_getD, List.getElem?_replicate]
    simp [h]
  · exact getDg_of_ge _ (by simpa using h) 0

/-! ## Well-formedness of the built graph -/

theorem lookupIndex_mem {m : List (String × Nat)} {c : String} {i : Nat}
    (h : lookupIndex m c = some i) : (c, i) ∈ m := by
  simp only [lookupIndex, Option.map_eq_some'] at h
  obtain ⟨⟨p1, p2⟩, hfind, hp2⟩ := h
  have h1 : p1 = c := by
    have := List.find?_some hfind
    simpa using this
  have h2 : p2 = i := hp2
  subst h1
  subst h2
  exact List.mem_of_find?_eq_some hfind

theorem length_pushEdge (adj : List (List (Nat × ℚ))) (i : Nat) (e : Nat × ℚ) :
    (pushEdge adj i e).length = adj.length := by
  simp [pushEdge]

theorem pushEdge_wf {adj : List (List (Nat × ℚ))} {j : Nat} {w : ℚ}
    (hadj : AdjWF adj) (hj : j < adj.length) (hw : 0 < w) (i : Nat) :
    AdjWF (pushEdge adj i (j, w)) := by
  intro l hl e he
  rw [length_pushEdge]
  unfold pushEdge at hl
  rcases List.mem_or_eq_of_mem_set hl with hmem | heq
  · exact hadj l hmem e he
  · subst heq
    rcases List.mem_append.mp he with h1 | h1
    · rcases Nat.lt_or_ge i adj.length with hi | hi
      · exact hadj _ (getD_mem_of_lt adj hi []) e h1
      · rw [getDg_of_ge adj hi] at h1
        exact absurd h1 (List.not_mem_nil e)
    · rw [List.mem_singleton] at h1
      subst h1
      exact ⟨hj, hw⟩

theorem getOrInsertIndex_spec {g : FxGraph} (hwf : GraphWF g) (c : String) :
    GraphWF (getOrInsertIndex g c).2 ∧
    (getOrInsertIndex g c).1 < (getOrInsertIndex g c).2.adjacency.length ∧
    g.adjacency.length ≤ (getOrInsertIndex g c).2.adjacency.length := by
  unfold getOrInsertIndex
  cases hl : lookupIndex g.currencyIndex c with
  | some i =>
    exact ⟨hwf, hwf.1 _ (lookupIndex_mem hl), le_refl _⟩
  | none =>
    refine ⟨⟨?_, ?_⟩, ?_, ?_⟩
    · intro p hp
      simp only [List.length_append, List.length_cons, List.length_nil]
      rcases List.mem_append.mp hp with h | h
      · exact Nat.lt_succ_of_lt (hwf.1 p h)
      · rw [List.mem_singleton] at h
        subst h
        exact Nat.lt_succ_self _
    · intro l hl' e he
      simp only [List.length_append, List.length_cons, List.length_nil]
      rcases List.mem_append.mp hl' with h | h
      · exact ⟨Nat.lt_succ_of_lt (hwf.2 l h e he).1, (hwf.2 l h e he).2⟩
      · rw [List.mem_singleton] at h
        subst h
        exact absurd he (List.not_mem_nil e)
    · simp only [List.length_append, List.length_cons, List.length_nil]
      omega
    · simp only [List.length_append, List.length_cons, List.length_nil]
      omega

theorem addRateRow_wf {g : FxGraph} (hwf : GraphWF g) {row : RateRow}
    (hr : 0 < row.rate) : GraphWF (addRateRow g row) := by
  obtain ⟨h1, h2, h3⟩ := getOrInsertIndex_spec hwf row.base
  obtain ⟨k1, k2, k3⟩ := getOrInsertIndex_spec h1 row.quote
  have hrw : addRateRow g row =
      ⟨pushEdge
        (pushEdge (getOrInsertIndex (getOrInsertIndex g row.base).2 row.quote).2.adjacency
          (getOrInsertIndex g row.base).1
          ((getOrInsertIndex (getOrInsertIndex g row.base).2 row.quote).1, row.rate))
        (getOrInsertIndex (getOrInsertIndex g row.base).2 row.quote).1
        ((getOrInsertIndex g row.base).1, row.rate⁻¹),
       (getOrInsertIndex (getOrInsertIndex g row.base).2 row.quote).2.currencyIndex⟩ := rfl
  rw [hrw]
  constructor
  · intro p hp
    show p.2 < (pushEdge (pushEdge _ _ _) _ _).length
    rw [length_pushEdge, length_pushEdge]
    exact k1.1 p hp
  · have first := pushEdge_wf k1.2 k2 hr (getOrInsertIndex g row.base).1
    have hb2 : (getOrInsertIndex g row.base).1 <
        (pushEdge (getOrInsertIndex (getOrInsertIndex g row.base).2 row.quote).2.adjacency
          (getOrInsertIndex g row.base).1
          ((getOrInsertIndex (getOrInsertIndex g row.base).2 row.quote).1, row.rate)).length := by
      rw [length_pushEdge]
      exact lt_of_lt_of_le h2 k3
    exact pushEdge_wf first hb2 (inv_pos.mpr hr) _

theorem buildFxGraphAux_wf (d : Nat) :
    ∀ (rows : List RateRow) (g g' : FxGraph), GraphWF g →
      buildFxGraphAux d rows g = .ok g' → GraphWF g'
  | [], g, g', hwf, h => by
    simp only [buildFxGraphAux, Except.ok.injEq] at h
    exact h ▸ hwf
  | row :: rest, g, g', hwf, h => by
    simp only [buildFxGraphAux] at h
    by_cases hr : 0 < row.rate
    · rw [if_pos hr] at h
      exact buildFxGraphAux_wf d rest _ g' (addRateRow_wf hwf hr) h
    · rw [if_neg hr] at h
      exact absurd h (by simp)

theorem buildFxGraph_wf {rows : List RateRow} {d : Nat} {g : FxGraph}
    (h : buildFxGraph rows d = .ok g) : GraphWF g := by
  refine buildFxGraphAux_wf d rows ⟨[], []⟩ g ⟨?_, ?_⟩ h
  · intro p hp
    exact absurd hp (List.not_mem_nil p)
  · intro l hl
    exact absurd hl (List.not_mem_nil l)

/-! ## Walks and the consistent valuation -/

theorem walk_congr {adj : List (List (Nat × ℚ))} {i j : Nat} {p q : ℚ}
    (h : Walk adj i j p) (e : p = q) : Walk adj i j q := e ▸ h

theorem walk_snoc {adj : List (List (Nat × ℚ))} :
    ∀ {i j : Nat} {p : ℚ}, Walk adj i j p → ∀ {k : Nat} {r : ℚ},
      (k, r) ∈ adj.getD j [] → Walk adj i k (p * r) := by
  intro i j p hw
  induction hw with
  | refl i =>
    intro k r he
    exact walk_congr (Walk.head he (Walk.refl k)) (by ring)
  | head hmem _ ih =>
    intro k r he
    exact walk_congr (Walk.head hmem (ih he)) (by ring)

theorem walk_product {adj : List (List (Nat × ℚ))} {φ : Nat → ℚ}
    (hφ : ∀ i, 0 < φ i)
    (hc : ∀ i, ∀ e ∈ adj.getD i [], e.2 = φ e.1 / φ i) :
    ∀ {i j : Nat} {p : ℚ}, Walk adj i j p → p = φ j / φ i := by
  intro i j p hw
  induction hw with
  | refl i => rw [div_self (ne_of_gt (hφ i))]
  | @head i j k r p hmem _ ih =>
    rw [ih, show r = φ j / φ i from hc i (j, r) hmem, div_mul_div_comm,
      mul_comm (φ i) (φ j)]
    exact mul_div_mul_left (φ k) (φ i) (ne_of_gt (hφ j))

/-! ## The recorded search values -/

theorem searchVal_pos {m : ℚ} {φ : Nat → ℚ} (hm : 0 < m) (hφ : ∀ i, 0 < φ i)
    (f i : Nat) : 0 < searchVal m φ f i :=
  mul_pos hm (div_pos (hφ i) (hφ f))

theorem searchVal_self {m : ℚ} {φ : Nat → ℚ} (hφ : ∀ i, 0 < φ i) (f : Nat) :
    searchVal m φ f f = m := by
  unfold searchVal
  rw [div_self (ne_of_gt (hφ f)), mul_one]

theorem searchVal_mul {m : ℚ} {φ : Nat → ℚ} (hφ : ∀ i, 0 < φ i) (f i j : Nat) :
    searchVal m φ f i * (φ j / φ i) = searchVal m φ f j := by
  unfold searchVal
  rw [mul_assoc, div_mul_div_comm, mul_comm (φ f) (φ i)]
  rw [mul_div_mul_left (φ j) (φ f) (ne_of_gt (hφ i))]

/-! ## The absolute magnitude -/

theorem ratAbs_pos {q : ℚ} (h : q ≠ 0) : 0 < ratAbs q := by
  unfold ratAbs
  by_cases h1 : q < 0
  · rw [if_pos h1]
    exact neg_pos.mpr h1
  · rw [if_neg h1]
    exact lt_of_le_of_ne (not_lt.mp h1) (Ne.symm h)

theorem ratAbs_of_neg {q : ℚ} (h : q < 0) : ratAbs q = -q := by
  unfold ratAbs
  rw [if_pos h]

theorem ratAbs_of_nonneg {q : ℚ} (h : ¬ q < 0) : ratAbs q = q := by
  unfold ratAbs
  rw [if_neg h]

/-! ## One relaxation pass of the search loop on a consistent graph -/

theorem relaxEdges_spec (adj : List (List (Nat × ℚ))) (φ : Nat → ℚ)
    (fromIdx : Nat) (m : ℚ) (hφ : ∀ i, 0 < φ i) (hm : 0 < m) (i0 : Nat)
    (hreach : Reaches adj fromIdx i0) :
    ∀ (es : List (Nat × ℚ)) (s s' : SearchState),
      s' = relaxEdges (searchVal m φ fromIdx i0) es s →
      (∀ e ∈ es, e ∈ adj.getD i0 []) →
      (∀ e ∈ es, e.1 < adj.length ∧ e.2 = φ e.1 / φ i0) →
      s.best.length = adj.length →
      (∀ i, i < adj.length → s.best.getD i 0 = 0 ∨
        (s.best.getD i 0 = searchVal m φ fromIdx i ∧ Reaches adj fromIdx i)) →
      (∀ e ∈ s.heap, e.2 < adj.length ∧ e.1 = searchVal m φ fromIdx e.2 ∧
        s.best.getD e.2 0 = e.1) →
      s'.best.length = adj.length ∧
      (∀ i, i < adj.length → s'.best.getD i 0 = 0 ∨
        (s'.best.getD i 0 = searchVal m φ fromIdx i ∧ Reaches adj fromIdx i)) ∧
      (∀ e ∈ s'.heap, e.2 < adj.length ∧ e.1 = searchVal m φ fromIdx e.2 ∧
        s'.best.getD e.2 0 = e.1) ∧
      (∀ i, s.best.getD i 0 ≠ 0 → s'.best.getD i 0 = s.best.getD i 0) ∧
      (∀ e ∈ es, s'.best.getD e.1 0 ≠ 0) ∧
      (∀ i, s'.best.getD i 0 ≠ 0 → s.best.getD i 0 ≠ 0 ∨ ∃ a, (a, i) ∈ s'.heap) ∧
      (∀ x ∈ s.heap, x ∈ s'.heap) ∧
      searchMeasure adj.length s' ≤ searchMeasure adj.length s
  | [], s, s', hs', _, _, hlen, h2, h3 => by
    subst hs'
    exact ⟨hlen, h2, h3, fun i _ => rfl, fun e he => absurd he (List.not_mem_nil e),
      fun i h => Or.inl h, fun x hx => hx, le_refl _⟩
  | (j, r) :: es, s, s', hs', hsub, hedge, hlen, h2, h3 => by
    have hjr := hedge (j, r) (List.mem_cons_self _ _)
    dsimp only at hjr
    have hjn : j < adj.length := hjr.1
    have hval : searchVal m φ fromIdx i0 * r = searchVal m φ fromIdx j := by
      rw [hjr.2]
      exact searchVal_mul hφ fromIdx i0 j
    have hposj : 0 < searchVal m φ fromIdx j := searchVal_pos hm hφ _ _
    have hstep : relaxEdges (searchVal m φ fromIdx i0) ((j, r) :: es) s =
        if s.best.getD j 0 < searchVal m φ fromIdx i0 * r then
          relaxEdges (searchVal m φ fromIdx i0) es
            ⟨s.best.set j (searchVal m φ fromIdx i0 * r),
             (searchVal m φ fromIdx i0 * r, j) :: s.heap⟩
        else relaxEdges (searchVal m φ fromIdx i0) es s := rfl
    by_cases hlt : s.best.getD j 0 < searchVal m φ fromIdx i0 * r
    · rw [hstep, if_pos hlt] at hs'
      have hj0 : s.best.getD j 0 = 0 := by
        rcases h2 j hjn with h | ⟨h, _⟩
        · exact h
        · exfalso
          rw [h, hval] at hlt
          exact lt_irrefl _ hlt
      have hreachj : Reaches adj fromIdx j := by
        obtain ⟨p, hw⟩ := hreach
        exact ⟨p * r, walk_snoc hw (hsub (j, r) (List.mem_cons_self _ _))⟩
      have hjlen : j < s.best.length := by
        rw [hlen]
        exact hjn
      have hset_self : (s.best.set j (searchVal m φ fromIdx i0 * r)).getD j 0 =
          searchVal m φ fromIdx i0 * r := getDg_set_self s.best hjlen _ 0
      have hyp2 : ∀ i, i < adj.length →
          (s.best.set j (searchVal m φ fromIdx i0 * r)).getD i 0 = 0 ∨
          ((s.best.set j (searchVal m φ fromIdx i0 * r)).getD i 0 =
            searchVal m φ fromIdx i ∧ Reaches adj fromIdx i) := by
        intro i hi
        by_cases hij : i = j
        · subst hij
          right
          rw [hset_self, hval]
          exact ⟨rfl, hreachj⟩
        · rw [getDg_set_ne s.best (Ne.symm hij) _ 0]
          exact h2 i hi
      have hyp3 : ∀ e ∈ ((searchVal m φ fromIdx i0 * r, j) :: s.heap),
          e.2 < adj.length ∧ e.1 = searchVal m φ fromIdx e.2 ∧
          (s.best.set j (searchVal m φ fromIdx i0 * r)).getD e.2 0 = e.1 := by
        intro e he
        rcases List.mem_cons.mp he with rfl | hmem
        · exact ⟨hjn, hval, hset_self⟩
        · have h3e := h3 e hmem
          have hne : e.2 ≠ j := by
            intro hEq
            have hbj : s.best.getD j 0 = searchVal m φ fromIdx j := by
              rw [← hEq, h3e.2.2, h3e.2.1]
            rw [hj0] at hbj
            exact absurd hbj.symm (ne_of_gt hposj)
          exact ⟨h3e.1, h3e.2.1, by
            rw [getDg_set_ne s.best (Ne.symm hne) _ 0]
            exact h3e.2.2⟩
      obtain ⟨c1, c2, c3, c4, c5, c6, c7, c8⟩ :=
        relaxEdges_spec adj φ fromIdx m hφ hm i0 hreach es
          ⟨s.best.set j (searchVal m φ fromIdx i0 * r),
           (searchVal m φ fromIdx i0 * r, j) :: s.heap⟩ s' hs'
          (fun e he => hsub e (List.mem_cons_of_mem _ he))
          (fun e he => hedge e (List.mem_cons_of_mem _ he))
          (by simpa using hlen) hyp2 hyp3
      dsimp only at c4 c6 c7
      refine ⟨c1, c2, c3, ?_, ?_, ?_, ?_, ?_⟩
      · intro i hi0
        have hij : i ≠ j := fun hEq => hi0 (hEq ▸ hj0)
        rw [c4 i (by rw [getDg_set_ne s.best (Ne.symm hij) _ 0]; exact hi0)]
        exact getDg_set_ne s.best (Ne.symm hij) _ 0
      · intro e he
        rcases List.mem_cons.mp he with rfl | hmem
        · show s'.best.getD j 0 ≠ 0
          have hne1 : (s.best.set j (searchVal m φ fromIdx i0 * r)).getD j 0 ≠ 0 := by
            rw [hset_self, hval]
            exact ne_of_gt hposj
          rw [c4 j hne1]
          exact hne1
        · exact c5 e hmem
      · intro i hi
        rcases c6 i hi with h | h
        · by_cases hij : i = j
          · subst hij
            exact Or.inr ⟨searchVal m φ fromIdx i0 * r, c7 _ (List.mem_cons_self _ _)⟩
          · left
            rw [getDg_set_ne s.best (Ne.symm hij) _ 0] at h
            exact h
        · exact Or.inr h
      · intro x hx
        exact c7 x (List.mem_cons_of_mem _ hx)
      · have hcount : ((List.range adj.length).filter fun i =>
              decide ((s.best.set j (searchVal m φ fromIdx i0 * r)).getD i 0 = 0)).length + 1 =
            ((List.range adj.length).filter fun i =>
              decide (s.best.getD i 0 = 0)).length := by
          apply filter_length_set (List.nodup_range _) (List.mem_range.mpr hjn)
          · intro k hk
            simp only [getDg_set_ne s.best (Ne.symm hk) (searchVal m φ fromIdx i0 * r) 0]
          · simpa using hj0
          · exact decide_eq_false (by
              rw [hset_self, hval]
              exact ne_of_gt hposj)
        have hle := c8
        unfold searchMeasure at hle ⊢
        dsimp only at hle
        simp only [List.length_cons] at hle
        omega
    · rw [hstep, if_neg hlt] at hs'
      obtain ⟨c1, c2, c3, c4, c5, c6, c7, c8⟩ :=
        relaxEdges_spec adj φ fromIdx m hφ hm i0 hreach es s s' hs'
          (fun e he => hsub e (List.mem_cons_of_mem _ he))
          (fun e he => hedge e (List.mem_cons_of_mem _ he))
          hlen h2 h3
      refine ⟨c1, c2, c3, c4, ?_, c6, c7, c8⟩
      intro e he
      rcases List.mem_cons.mp he with rfl | hmem
      · show s'.best.getD j 0 ≠ 0
        have hge : searchVal m φ fromIdx j ≤ s.best.getD j 0 := by
          rw [← hval]
          exact not_lt.mp hlt
        have hne0 : s.best.getD j 0 ≠ 0 :=
          ne_of_gt (lt_of_lt_of_le hposj hge)
        rw [c4 j hne0]
        exact hne0
      · exact c5 e hmem

/-! ## One loop iteration on a consistent graph -/

theorem stepSearch_consistent (adj : List (List (Nat × ℚ))) (φ : Nat → ℚ)
    (fromIdx toIdx : Nat) (m : ℚ) (hwf : AdjWF adj) (hφ : ∀ i, 0 < φ i)
    (hcons : ∀ i, ∀ e ∈ adj.getD i [], e.2 = φ e.1 / φ i) (hm : 0 < m)
    (s : SearchState) (hinv : SearchInv adj φ fromIdx toIdx m s)
    (hne : s.heap ≠ []) :
    stepSearch adj toIdx s = .foundRes (searchVal m φ fromIdx toIdx) ∨
    ∃ s', stepSearch adj toIdx s = .next s' ∧
      SearchInv adj φ fromIdx toIdx m s' ∧
      searchMeasure adj.length s' < searchMeasure adj.length s := by
  obtain ⟨h1, h2, h3, h4, h5⟩ := hinv
  obtain ⟨x, xs, hheap⟩ : ∃ x xs, s.heap = x :: xs := by
    cases hh : s.heap with
    | nil => exact absurd hh hne
    | cons x xs => exact ⟨x, xs, rfl⟩
  have hpop : popMax s.heap =
      some (maxEntry x xs, removeFirst (maxEntry x xs) s.heap) := by
    rw [hheap]
    rfl
  obtain ⟨hmem, -⟩ := popMax_eq_some hpop
  have h3e := h3 _ hmem
  have hstep : stepSearch adj toIdx s =
      if (maxEntry x xs).1 < s.best.getD (maxEntry x xs).2 0 then
        .next ⟨s.best, removeFirst (maxEntry x xs) s.heap⟩
      else if (maxEntry x xs).2 = toIdx then .foundRes (maxEntry x xs).1
      else .next (relaxEdges (maxEntry x xs).1 (adj.getD (maxEntry x xs).2 [])
        ⟨s.best, removeFirst (maxEntry x xs) s.heap⟩) := by
    unfold stepSearch
    rw [hpop]
  rw [hstep, if_neg (by rw [h3e.2.2]; exact lt_irrefl _)]
  by_cases htgt : (maxEntry x xs).2 = toIdx
  · rw [if_pos htgt]
    left
    rw [h3e.2.1, htgt]
  · rw [if_neg htgt]
    right
    have hval0 : s.best.getD (maxEntry x xs).2 0 ≠ 0 := by
      rw [h3e.2.2, h3e.2.1]
      exact ne_of_gt (searchVal_pos hm hφ _ _)
    have hreach0 : Reaches adj fromIdx (maxEntry x xs).2 := by
      rcases h2 _ h3e.1 with h | ⟨_, h⟩
      · exact absurd h hval0
      · exact h
    have hrest3 : ∀ e ∈ removeFirst (maxEntry x xs) s.heap,
        e.2 < adj.length ∧ e.1 = searchVal m φ fromIdx e.2 ∧
        s.best.getD e.2 0 = e.1 :=
      fun e he => h3 e (removeFirst_subset he)
    have hadjmem : adj.getD (maxEntry x xs).2 [] ∈ adj := getD_mem_of_lt adj h3e.1 []
    obtain ⟨c1, c2, c3, c4, c5, c6, c7, c8⟩ :=
      relaxEdges_spec adj φ fromIdx m hφ hm (maxEntry x xs).2 hreach0
        (adj.getD (maxEntry x xs).2 [])
        ⟨s.best, removeFirst (maxEntry x xs) s.heap⟩
        (relaxEdges (maxEntry x xs).1 (adj.getD (maxEntry x xs).2 [])
          ⟨s.best, removeFirst (maxEntry x xs) s.heap⟩)
        (by rw [h3e.2.1]) (fun e he => he)
        (fun e he => ⟨(hwf _ hadjmem e he).1, hcons _ e he⟩)
        h1 h2 hrest3
    dsimp only at c4 c6
    refine ⟨_, rfl, ⟨c1, c2, c3, ?_, ?_⟩, ?_⟩
    · intro i hi hnz
      by_cases hii : i = (maxEntry x xs).2
      · subst hii
        exact Or.inr ⟨htgt, c5⟩
      · rcases c6 i hnz with hold | hheapE
        · rcases h4 i hi hold with ⟨a, haE⟩ | ⟨hit, hnb⟩
          · left
            refine ⟨a, c7 _ ?_⟩
            apply removeFirst_mem_of_ne haE
            intro hEq
            exact hii (congrArg Prod.snd hEq)
          · right
            refine ⟨hit, fun e he => ?_⟩
            have hb := hnb e he
            rw [c4 e.1 hb]
            exact hb
        · exact Or.inl hheapE
    · rw [c4 fromIdx h5]
      exact h5
    · have hrl := removeFirst_length hmem
      unfold searchMeasure at c8 ⊢
      dsimp only at c8
      omega

/-! ## An empty heap means the loop exits having reached every reachable node -/

theorem heap_empty_unreachable {adj : List (List (Nat × ℚ))} {φ : Nat → ℚ}
    {fromIdx toIdx : Nat} {m : ℚ} (hwf : AdjWF adj)
    {s : SearchState} (hinv : SearchInv adj φ fromIdx toIdx m s)
    (hheap : s.heap = []) (hreach : Reaches adj fromIdx toIdx) : False := by
  obtain ⟨h1, h2, h3, h4, h5⟩ := hinv
  have hfrom : fromIdx < adj.length := by
    by_contra hge
    exact h5 (getD_zero_of_ge s.best (by rw [h1]; omega))
  have key : ∀ {i j : Nat} {p : ℚ}, Walk adj i j p → i < adj.length →
      s.best.getD i 0 ≠ 0 → s.best.getD j 0 ≠ 0 ∧ j ≠ toIdx := by
    intro i j p hw
    induction hw with
    | refl i =>
      intro hi hnz
      refine ⟨hnz, ?_⟩
      rcases h4 i hi hnz with ⟨a, ha⟩ | ⟨hit, _⟩
      · rw [hheap] at ha
        exact absurd ha (List.not_mem_nil _)
      · exact hit
    | @head i j k r p hmem hw ih =>
      intro hi hnz
      rcases h4 i hi hnz with ⟨a, ha⟩ | ⟨_, hnb⟩
      · rw [hheap] at ha
        exact absurd ha (List.not_mem_nil _)
      · have hjn : j < adj.length := (hwf _ (getD_mem_of_lt adj hi []) _ hmem).1
        exact ih hjn (hnb (j, r) hmem)
  obtain ⟨p, hw⟩ := hreach
  exact (key hw hfrom h5).2 rfl

/-! ## The search loop on a consistent graph -/

theorem fxSearch_consistent (adj : List (List (Nat × ℚ))) (φ : Nat → ℚ)
    (fromIdx toIdx : Nat) (m : ℚ) (hwf : AdjWF adj) (hφ : ∀ i, 0 < φ i)
    (hcons : ∀ i, ∀ e ∈ adj.getD i [], e.2 = φ e.1 / φ i) (hm : 0 < m)
    (hreach : Reaches adj fromIdx toIdx) :
    ∀ (k : Nat) (s : SearchState), searchMeasure adj.length s < k →
      SearchInv adj φ fromIdx toIdx m s →
      fxSearch adj toIdx k s = some (some (searchVal m φ fromIdx toIdx))
  | 0, s, hk, _ => absurd hk (by omega)
  | k + 1, s, hk, hinv => by
    by_cases hheap : s.heap = []
    · exact (heap_empty_unreachable hwf hinv hheap hreach).elim
    · rcases stepSearch_consistent adj φ fromIdx toIdx m hwf hφ hcons hm s hinv
          hheap with hfound | ⟨s', hs', hinv', hm'⟩
      · simp only [fxSearch, hfound]
      · simp only [fxSearch, hs']
        exact fxSearch_consistent adj φ fromIdx toIdx m hwf hφ hcons hm hreach k s'
          (by omega) hinv'

theorem fxSearch_mono (adj : List (List (Nat × ℚ))) (toIdx : Nat) :
    ∀ (k k' : Nat) (s : SearchState) (r : Option ℚ), k ≤ k' →
      fxSearch adj toIdx k s = some r → fxSearch adj toIdx k' s = some r
  | 0, _, s, r, _, h => by simp [fxSearch] at h
  | k + 1, k', s, r, hk, h => by
    obtain ⟨k'', rfl⟩ : ∃ k'', k' = k'' + 1 := ⟨k' - 1, by omega⟩
    simp only [fxSearch] at h ⊢
    revert h
    cases hs : stepSearch adj toIdx s with
    | noPath => intro h; exact h
    | foundRes a => intro h; exact h
    | next s' => intro h; exact fxSearch_mono adj toIdx k k'' s' r (by omega) h

/-! ## The initial search state satisfies the loop invariant -/

theorem initState_inv (adj : List (List (Nat × ℚ))) (φ : Nat → ℚ)
    (fromIdx toIdx : Nat) (m : ℚ) (hφ : ∀ i, 0 < φ i) (hm : 0 < m)
    (hfrom : fromIdx < adj.length) :
    SearchInv adj φ fromIdx toIdx m (initState adj.length fromIdx m) := by
  have hflt : fromIdx < (List.replicate adj.length (0 : ℚ)).length := by
    rw [List.length_replicate]
    exact hfrom
  have hself : ((List.replicate adj.length (0:ℚ)).set fromIdx m).getD fromIdx 0 = m :=
    getDg_set_self _ hflt _ 0
  have hoth : ∀ i, i ≠ fromIdx →
      ((List.replicate adj.length (0:ℚ)).set fromIdx m).getD i 0 = 0 := by
    intro i hi
    rw [getDg_set_ne _ (Ne.symm hi) _ 0]
    exact replicate_zero_getD _ _
  unfold SearchInv initState
  refine ⟨?_, ?_, ?_, ?_, ?_⟩
  · show ((List.replicate adj.length (0:ℚ)).set fromIdx m).length = adj.length
    simp
  · intro i hi
    by_cases hif : i = fromIdx
    · subst hif
      right
      rw [hself, searchVal_self hφ]
      exact ⟨rfl, ⟨1, Walk.refl i⟩⟩
    · exact Or.inl (hoth i hif)
  · intro e he
    rw [List.mem_singleton] at he
    subst he
    exact ⟨hfrom, (searchVal_self hφ fromIdx).symm, hself⟩
  · intro i hi hnz
    by_cases hif : i = fromIdx
    · subst hif
      exact Or.inl ⟨m, List.mem_singleton.mpr rfl⟩
    · exact absurd (hoth i hif) hnz
  · rw [hself]
    exact ne_of_gt hm

/-! ## Monotonicity of the fuelled conversion in the iteration budget -/

theorem fxConvertOnGraph_mono {g : FxGraph} {fuel fuel' date : Nat} {amount : ℚ}
    {f t : String} {r : Except FxError ℚ} (hk : fuel ≤ fuel')
    (h : fxConvertOnGraph g fuel date amount f t = some r) :
    fxConvertOnGraph g fuel' date amount f t = some r := by
  revert h
  simp only [fxConvertOnGraph]
  cases hf : lookupIndex g.currencyIndex f with
  | none => intro h; exact h
  | some fromIdx =>
    cases ht : lookupIndex g.currencyIndex t with
    | none => intro h; exact h
    | some toIdx =>
      dsimp only
      by_cases hmag : ratAbs amount = 0
      · rw [if_pos hmag, if_pos hmag]
        intro h
        exact h
      · rw [if_neg hmag, if_neg hmag]
        cases hs : fxSearch g.adjacency toIdx fuel
            (initState g.adjacency.length fromIdx (ratAbs amount)) with
        | none => intro h; exact absurd h (by simp)
        | some o =>
          rw [fxSearch_mono g.adjacency toIdx fuel fuel' _ o hk hs]
          intro h
          exact h

theorem fxConvert_mono {table : List RateRow} {fuel fuel' date : Nat} {amount : ℚ}
    {f t : String} {r : Except FxError ℚ} (hk : fuel ≤ fuel')
    (h : fxConvert table fuel date amount f t = some r) :
    fxConvert table fuel' date amount f t = some r := by
  unfold fxConvert at h ⊢
  by_cases hft : f = t
  · rw [if_pos hft] at h ⊢
    exact h
  · rw [if_neg hft] at h ⊢
    cases hb : buildFxGraph (selectRatesFor table date) date with
    | error e =>
      rw [hb] at h
      exact h
    | ok g =>
      rw [hb] at h
      exact fxConvertOnGraph_mono hk h

/-! ## The triangulation table and its consistent valuation -/

theorem triPhi_pos : ∀ i, 0 < triPhi i := by
  intro i
  unfold triPhi
  split_ifs <;> norm_num

theorem triPhi_cons : ∀ i, ∀ e ∈ triGraph.adjacency.getD i [],
    e.2 = triPhi e.1 / triPhi i := by
  intro i e he
  match i with
  | 0 =>
    rw [show triGraph.adjacency.getD 0 [] = [(1, (4:ℚ)/5)] from rfl,
      List.mem_singleton] at he
    subst he
    decide
  | 1 =>
    rw [show triGraph.adjacency.getD 1 [] = [(0, (5:ℚ)/4), (2, 130)] from rfl] at he
    rcases List.mem_cons.mp he with rfl | he'
    · decide
    · rw [List.mem_singleton] at he'
      subst he'
      decide
  | 2 =>
    rw [show triGraph.adjacency.getD 2 [] = [(1, (1:ℚ)/130)] from rfl,
      List.mem_singleton] at he
    subst he
    decide
  | n + 3 =>
    have h3 : triGraph.adjacency.getD (n + 3) [] = [] := by
      simp [triGraph, List.getD_eq_getElem?_getD]
    rw [h3] at he
    exact absurd he (List.not_mem_nil e)

theorem triGraph_reach : Reaches triGraph.adjacency 0 2 := by
  refine ⟨(4/5) * (130 * 1), ?_⟩
  exact @Walk.head triGraph.adjacency 0 1 2 (4/5) (130 * 1) (by decide)
    (@Walk.head triGraph.adjacency 1 2 2 130 1 (by decide) (Walk.refl 2))

/-- C1: on a rate graph consistent with a positive valuation of its
currencies — every edge weight the ratio of its endpoint valuations, so
every path between two fixed nodes has the same weight product, which is
then also the maximum over all paths — converting a nonzero amount between
distinct convertible currencies terminates and returns the amount times
that product; and on the spec's concrete best-path table the result is
2.50, never 1.00. -/
theorem fx_convert_best_path (table : List RateRow) (date : Nat) (amount : ℚ)
    (fromCcy toCcy : String) (g : FxGraph) (φ : Nat → ℚ) (fromIdx toIdx : Nat)
    (hne : fromCcy ≠ toCcy)
    (hbuild : buildFxGraph (selectRatesFor table date) date = .ok g)
    (hφ : ∀ i, 0 < φ i)
    (hcons : ∀ i, ∀ e ∈ g.adjacency.getD i [], e.2 = φ e.1 / φ i)
    (hfrom : lookupIndex g.currencyIndex fromCcy = some fromIdx)
    (hto : lookupIndex g.currencyIndex toCcy = some toIdx)
    (hreach : Reaches g.adjacency fromIdx toIdx)
    (hamt : amount ≠ 0) :
    (∃ fuel₀, ∀ fuel, fuel₀ ≤ fuel →
      fxConvert table fuel date amount fromCcy toCcy =
        some (.ok (amount * (φ toIdx / φ fromIdx)))) ∧
    (∀ p, Walk g.adjacency fromIdx toIdx p → p = φ toIdx / φ fromIdx) ∧
    (∀ fuel r, fxConvert hubTable fuel 20250815 10 "CAD" "GBP" = some r →
      r = .ok (5/2)) ∧
    fxConvert hubTable 6 20250815 10 "CAD" "GBP" = some (.ok (5/2)) := by
  have hwfg := buildFxGraph_wf hbuild
  have hfromlt : fromIdx < g.adjacency.length := hwfg.1 _ (lookupIndex_mem hfrom)
  have hm : 0 < ratAbs amount := ratAbs_pos hamt
  refine ⟨⟨searchMeasure g.adjacency.length
      (initState g.adjacency.length fromIdx (ratAbs amount)) + 1, ?_⟩,
    fun p hw => walk_product hφ hcons hw, ?_, by decide⟩
  · intro fuel hfuel
    have hsearch := fxSearch_consistent g.adjacency φ fromIdx toIdx (ratAbs amount)
      hwfg.2 hφ hcons hm hreach fuel
      (initState g.adjacency.length fromIdx (ratAbs amount)) (by omega)
      (initState_inv g.adjacency φ fromIdx toIdx (ratAbs amount) hφ hm hfromlt)
    unfold fxConvert
    rw [if_neg hne, hbuild]
    dsimp only
    unfold fxConvertOnGraph
    rw [hfrom, hto]
    dsimp only
    rw [if_neg (ne_of_gt hm), hsearch]
    dsimp only
    have hval : (if amount < 0 then -(searchVal (ratAbs amount) φ fromIdx toIdx)
        else searchVal (ratAbs amount) φ fromIdx toIdx) =
        amount * (φ toIdx / φ fromIdx) := by
      by_cases hneg : amount < 0
      · rw [if_pos hneg]
        unfold searchVal
        rw [ratAbs_of_neg hneg]
        ring
      · rw [if_neg hneg]
        unfold searchVal
        rw [ratAbs_of_nonneg hneg]
    rw [hval]
  · intro fuel r hr
    have h6 : fxConvert hubTable 6 20250815 10 "CAD" "GBP" = some (.ok (5/2)) := by
      decide
    have hA := fxConvert_mono (le_max_left fuel 6) hr
    have hB := fxConvert_mono (le_max_right fuel 6) h6
    exact Option.some.inj (hA.symm.trans hB)

/-- Witness for the consistent best-path theorem: the repo's triangulation
table `USD→EUR=0.8`, `EUR→JPY=130` with the explicit valuation `triPhi`;
100 USD converts to 100 · (104 / 1) = 10400 JPY. -/
theorem fx_convert_best_path_witness :
    (∃ fuel₀, ∀ fuel, fuel₀ ≤ fuel →
      fxConvert triTable fuel 20250802 100 "USD" "JPY" =
        some (.ok (100 * (triPhi 2 / triPhi 0)))) ∧
    (∀ p, Walk triGraph.adjacency 0 2 p → p = triPhi 2 / triPhi 0) ∧
    (∀ fuel r, fxConvert hubTable fuel 20250815 10 "CAD" "GBP" = some r →
      r = .ok (5/2)) ∧
    fxConvert hubTable 6 20250815 10 "CAD" "GBP" = some (.ok (5/2)) :=
  fx_convert_best_path triTable 20250802 100 "USD" "JPY" triGraph triPhi 0 2
    (by decide) (by decide) triPhi_pos triPhi_cons (by decide) (by decide)
    triGraph_reach (by decide)

/-- C1 counterexample: with a direct rate `AAA→TTT = 1` and an indirect
route of weight product 5, the search pops the target at the direct value
and returns 10, not 10 times the maximal path product 5. -/
theorem fx_convert_greedy_cex :
    buildFxGraph (selectRatesFor greedyTable 20250815) 20250815 = .ok greedyGraph ∧
    fxConvert greedyTable 6 20250815 10 "AAA" "TTT" = some (.ok 10) ∧
    Walk greedyGraph.adjacency 0 1 5 ∧
    ¬ (10 : ℚ) * 5 = 10 := by
  refine ⟨by decide, by decide, ?_, by decide⟩
  have hw : Walk greedyGraph.adjacency 0 1 ((1/2) * (10 * 1)) :=
    @Walk.head greedyGraph.adjacency 0 2 1 (1/2) (10 * 1) (by decide)
      (@Walk.head greedyGraph.adjacency 2 1 1 10 1 (by decide) (Walk.refl 1))
  exact walk_congr hw (by norm_num)

/-- C2 (amended): a zero-amount conversion returns zero unchanged, without
running the search and for every iteration budget, provided the two
currencies are equal or both present in the graph built for the date; the
currency lookups happen before the zero-amount early return, so an absent
currency still fails (see the counterexample). -/
theorem fx_convert_zero_amount (table : List RateRow) (date : Nat)
    (fromCcy toCcy : String) (g : FxGraph) (fromIdx toIdx : Nat)
    (hbuild : buildFxGraph (selectRatesFor table date) date = .ok g)
    (hfrom : lookupIndex g.currencyIndex fromCcy = some fromIdx)
    (hto : lookupIndex g.currencyIndex toCcy = some toIdx) :
    ∀ fuel, fxConvert table fuel date 0 fromCcy toCcy = some (.ok 0) := by
  intro fuel
  unfold fxConvert
  by_cases hft : fromCcy = toCcy
  · rw [if_pos hft]
  · rw [if_neg hft, hbuild]
    dsimp only
    unfold fxConvertOnGraph
    rw [hfrom, hto]
    dsimp only
    rw [if_pos (show ratAbs (0:ℚ) = 0 from by decide)]

/-- Witness for the zero-amount theorem at the triangulation table. -/
theorem fx_convert_zero_amount_witness :
    buildFxGraph (selectRatesFor triTable 20250802) 20250802 = .ok triGraph ∧
    lookupIndex triGraph.currencyIndex "USD" = some 0 ∧
    lookupIndex triGraph.currencyIndex "JPY" = some 2 ∧
    ∀ fuel, fxConvert triTable fuel 20250802 0 "USD" "JPY" = some (.ok 0) :=
  ⟨by decide, by decide, by decide,
    fx_convert_zero_amount triTable 20250802 "USD" "JPY" triGraph 0 2
      (by decide) (by decide) (by decide)⟩

/-- C2 counterexample: with an empty rate table, converting a zero amount
between two distinct absent currencies fails with `NotConvertible` instead
of returning zero — the currency lookups precede the zero-amount check. -/
theorem fx_convert_zero_absent_cex :
    fxConvert [] 5 20250101 0 "EUR" "JPY" =
      some (.error (.notConvertible "EUR" "JPY" 20250101)) ∧
    ¬ fxConvert [] 5 20250101 0 "EUR" "JPY" = some (.ok 0) :=
  ⟨by decide, by decide⟩

/-! ## The search loop is homogeneous in the amounts -/

theorem scaleState_one (s : SearchState) : scaleState 1 s = s := by
  cases s with
  | mk b h =>
    unfold scaleState
    congr 1
    · simp
    · simp

theorem scaleState_mul (c d : ℚ) (s : SearchState) :
    scaleState c (scaleState d s) = scaleState (c * d) s := by
  unfold scaleState
  simp [List.map_map, Function.comp, mul_assoc]

theorem getD_map_scale (c : ℚ) : ∀ (l : List ℚ) (j : Nat),
    (l.map fun q => c * q).getD j 0 = c * l.getD j 0
  | [], j => by simp
  | x :: xs, 0 => rfl
  | x :: xs, j + 1 => by
    simp only [List.map_cons]
    exact getD_map_scale c xs j

theorem set_map_scale (c : ℚ) (l : List ℚ) (j : Nat) (v : ℚ) :
    (l.map fun q => c * q).set j (c * v) = (l.set j v).map fun q => c * q := by
  rw [List.map_set]

theorem entryLt_scale {c : ℚ} (hc : 0 < c) (a b : ℚ × Nat) :
    entryLt (c * a.1, a.2) (c * b.1, b.2) ↔ entryLt a b := by
  unfold entryLt
  dsimp only
  rw [mul_lt_mul_left hc, mul_right_inj' (ne_of_gt hc)]

theorem maxEntry_scale {c : ℚ} (hc : 0 < c) :
    ∀ (e : ℚ × Nat) (l : List (ℚ × Nat)),
      maxEntry (c * e.1, e.2) (l.map fun x => (c * x.1, x.2)) =
        (c * (maxEntry e l).1, (maxEntry e l).2)
  | e, [] => rfl
  | e, x :: xs => by
    simp only [List.map_cons, maxEntry]
    by_cases h : entryLt e x
    · rw [if_pos ((entryLt_scale hc e x).mpr h), if_pos h]
      exact maxEntry_scale hc x xs
    · rw [if_neg (fun hcon => h ((entryLt_scale hc e x).mp hcon)), if_neg h]
      exact maxEntry_scale hc e xs

theorem removeFirst_scale {c : ℚ} (hc : c ≠ 0) :
    ∀ (e : ℚ × Nat) (l : List (ℚ × Nat)),
      removeFirst (c * e.1, e.2) (l.map fun x => (c * x.1, x.2)) =
        (removeFirst e l).map fun x => (c * x.1, x.2)
  | e, [] => rfl
  | e, x :: xs => by
    simp only [List.map_cons, removeFirst]
    by_cases h : x = e
    · rw [if_pos (by rw [h]), if_pos h]
    · have hne : ((c * x.1, x.2) : ℚ × Nat) ≠ (c * e.1, e.2) := by
        intro hEq
        apply h
        rw [Prod.ext_iff] at hEq ⊢
        dsimp only at hEq
        exact ⟨mul_left_cancel₀ hc hEq.1, hEq.2⟩
      rw [if_neg hne, if_neg h, removeFirst_scale hc e xs]
      simp only [List.map_cons]

theorem popMax_scale {c : ℚ} (hc : 0 < c) (l : List (ℚ × Nat)) :
    popMax (l.map fun x => (c * x.1, x.2)) =
      (popMax l).map fun pr =>
        ((c * pr.1.1, pr.1.2), pr.2.map fun x => (c * x.1, x.2)) := by
  cases l with
  | nil => rfl
  | cons x xs =>
    simp only [List.map_cons, popMax]
    rw [show ((c * x.1, x.2) :: xs.map fun y => (c * y.1, y.2)) =
        ((x :: xs).map fun y => (c * y.1, y.2)) from rfl]
    rw [maxEntry_scale hc x xs, removeFirst_scale (ne_of_gt hc) (maxEntry x xs) (x :: xs)]
    rfl

theorem relaxEdges_scale {c : ℚ} (hc : 0 < c) (a : ℚ) :
    ∀ (es : List (Nat × ℚ)) (s : SearchState),
      relaxEdges (c * a) es (scaleState c s) = scaleState c (relaxEdges a es s)
  | [], s => rfl
  | (j, r) :: es, s => by
    simp only [relaxEdges]
    have hgetD : (scaleState c s).best.getD j 0 = c * s.best.getD j 0 :=
      getD_map_scale c s.best j
    by_cases h : s.best.getD j 0 < a * r
    · rw [if_pos (by
        rw [hgetD, mul_assoc]
        exact (mul_lt_mul_left hc).mpr h), if_pos h]
      have hstate : (⟨(scaleState c s).best.set j (c * a * r),
          (c * a * r, j) :: (scaleState c s).heap⟩ : SearchState) =
          scaleState c ⟨s.best.set j (a * r), (a * r, j) :: s.heap⟩ := by
        unfold scaleState
        dsimp only
        congr 1
        · rw [mul_assoc]
          exact set_map_scale c s.best j (a * r)
        · simp only [List.map_cons]
          rw [mul_assoc]
      rw [hstate]
      exact relaxEdges_scale hc a es _
    · rw [if_neg (by
        rw [hgetD, mul_assoc]
        exact fun hcon => h ((mul_lt_mul_left hc).mp hcon)), if_neg h]
      exact relaxEdges_scale hc a es s

theorem stepSearch_scale {c : ℚ} (hc : 0 < c) (adj : List (List (Nat × ℚ)))
    (toIdx : Nat) (s : SearchState) :
    stepSearch adj toIdx (scaleState c s) = scaleStep c (stepSearch adj toIdx s) := by
  unfold stepSearch
  rw [show (scaleState c s).heap = s.heap.map (fun x => (c * x.1, x.2)) from rfl,
    popMax_scale hc s.heap]
  cases hp : popMax s.heap with
  | none => rfl
  | some pr =>
    obtain ⟨e, rest⟩ := pr
    simp only [Option.map_some']
    have hgetD : (scaleState c s).best.getD e.2 0 = c * s.best.getD e.2 0 :=
      getD_map_scale c s.best e.2
    by_cases h1 : e.1 < s.best.getD e.2 0
    · have hcpos : c * e.1 < (scaleState c s).best.getD e.2 0 := by
        rw [hgetD]
        exact (mul_lt_mul_left hc).mpr h1
      rw [if_pos hcpos, if_pos h1]
      rfl
    · have hcneg : ¬ c * e.1 < (scaleState c s).best.getD e.2 0 := by
        rw [hgetD]
        exact fun hcon => h1 ((mul_lt_mul_left hc).mp hcon)
      rw [if_neg hcneg, if_neg h1]
      by_cases h2 : e.2 = toIdx
      · rw [if_pos h2, if_pos h2]
        rfl
      · rw [if_neg h2, if_neg h2]
        rw [show (⟨(scaleState c s).best, rest.map fun x => (c * x.1, x.2)⟩ :
            SearchState) = scaleState c ⟨s.best, rest⟩ from rfl,
          relaxEdges_scale hc e.1 (adj.getD e.2 []) ⟨s.best, rest⟩]
        rfl

/-! ## The pump cycle: the loop never exits on `pumpTable` -/

theorem pump_spin : ∀ (fuel : Nat) (c : ℚ), 0 < c →
    fxSearch pumpGraph.adjacency 3 fuel
      (scaleState c ⟨[1, 2, 0, 0], [(2, 1)]⟩) = none ∧
    fxSearch pumpGraph.adjacency 3 fuel
      (scaleState c ⟨[4, 2, 0, 0], [(4, 0)]⟩) = none
  | 0, c, hc => ⟨rfl, rfl⟩
  | fuel + 1, c, hc => by
    constructor
    · have hstep : stepSearch pumpGraph.adjacency 3 ⟨[1, 2, 0, 0], [(2, 1)]⟩ =
          .next ⟨[4, 2, 0, 0], [(4, 0)]⟩ := by decide
      simp only [fxSearch]
      rw [stepSearch_scale hc pumpGraph.adjacency 3 ⟨[1, 2, 0, 0], [(2, 1)]⟩, hstep]
      dsimp only [scaleStep]
      exact (pump_spin fuel c hc).2
    · have hstep : stepSearch pumpGraph.adjacency 3 ⟨[4, 2, 0, 0], [(4, 0)]⟩ =
          .next ⟨[4, 8, 0, 0], [(8, 1)]⟩ := by decide
      simp only [fxSearch]
      rw [stepSearch_scale hc pumpGraph.adjacency 3 ⟨[4, 2, 0, 0], [(4, 0)]⟩, hstep]
      dsimp only [scaleStep]
      rw [show scaleState c ⟨[4, 8, 0, 0], [(8, 1)]⟩ =
          scaleState (c * 4) ⟨[1, 2, 0, 0], [(2, 1)]⟩ from by
        rw [show (⟨[4, 8, 0, 0], [(8, 1)]⟩ : SearchState) =
            scaleState 4 ⟨[1, 2, 0, 0], [(2, 1)]⟩ from by decide, scaleState_mul]]
      exact (pump_spin fuel (c * 4) (mul_pos hc (by norm_num))).1

theorem pump_diverges : FxDiverges pumpTable 20250815 1 "AAA" "TTT" := by
  intro fuel
  unfold fxConvert
  rw [if_neg (by decide : ¬ "AAA" = "TTT"),
    show buildFxGraph (selectRatesFor pumpTable 20250815) 20250815 =
      .ok pumpGraph from by decide]
  dsimp only
  unfold fxConvertOnGraph
  rw [show lookupIndex pumpGraph.currencyIndex "AAA" = some 0 from by decide,
    show lookupIndex pumpGraph.currencyIndex "TTT" = some 3 from by decide]
  dsimp only
  rw [if_neg (by decide : ¬ ratAbs (1:ℚ) = 0),
    show ratAbs (1:ℚ) = 1 from by decide]
  cases fuel with
  | zero => rfl
  | succ fuel =>
    have hs : fxSearch pumpGraph.adjacency 3 (fuel + 1)
        (initState pumpGraph.adjacency.length 0 1) = none := by
      have hstep : stepSearch pumpGraph.adjacency 3
          (initState pumpGraph.adjacency.length 0 1) =
          .next ⟨[1, 2, 0, 0], [(2, 1)]⟩ := by decide
      simp only [fxSearch]
      rw [hstep, show (⟨[1, 2, 0, 0], [(2, 1)]⟩ : SearchState) =
          scaleState 1 ⟨[1, 2, 0, 0], [(2, 1)]⟩ from (scaleState_one _).symm]
      exact (pump_spin fuel 1 one_pos).1
    rw [hs]

/-! ## No walk leaves the pumping component -/

theorem pump_no_path : NoFxPath pumpGraph.adjacency 0 3 := by
  intro p hw
  have key : ∀ {i j : Nat} {q : ℚ}, Walk pumpGraph.adjacency i j q →
      i = 0 ∨ i = 1 → j = 0 ∨ j = 1 := by
    intro i j q hw
    induction hw with
    | refl i => exact fun h => h
    | @head i j k r p hmem _ ih =>
      intro hi
      apply ih
      rcases hi with rfl | rfl
      · rw [show pumpGraph.adjacency.getD 0 [] = [(1, (2:ℚ)), (1, 1/2)] from rfl] at hmem
        rcases List.mem_cons.mp hmem with h | h
        · exact Or.inr (congrArg Prod.fst h)
        · rw [List.mem_singleton] at h
          exact Or.inr (congrArg Prod.fst h)
      · rw [show pumpGraph.adjacency.getD 1 [] = [(0, (1:ℚ)/2), (0, 2)] from rfl] at hmem
        rcases List.mem_cons.mp hmem with h | h
        · exact Or.inl (congrArg Prod.fst h)
        · rw [List.mem_singleton] at h
          exact Or.inl (congrArg Prod.fst h)
  rcases key hw (Or.inl rfl) with h | h
  · exact absurd h (by decide)
  · exact absurd h (by decide)

/-- C9: the best-path search does not terminate on every buildable graph:
`pumpTable` builds successfully (all stored rates positive), its stored
cross rates `AAA→BBB=2` and `BBB→AAA=2` close a cycle of weight product
4 > 1, and the conversion loop then pumps amounts around that cycle
forever, whatever finite iteration budget it is given. -/
theorem fx_search_nontermination :
    buildFxGraph (selectRatesFor pumpTable 20250815) 20250815 = .ok pumpGraph ∧
    Walk pumpGraph.adjacency 0 0 4 ∧
    (1 : ℚ) < 4 ∧
    FxDiverges pumpTable 20250815 1 "AAA" "TTT" := by
  refine ⟨by decide, ?_, by norm_num, pump_diverges⟩
  have hw : Walk pumpGraph.adjacency 0 0 (2 * ((2:ℚ) * 1)) :=
    @Walk.head pumpGraph.adjacency 0 1 0 2 (2 * 1) (by decide)
      (@Walk.head pumpGraph.adjacency 1 0 0 2 1 (by decide) (Walk.refl 0))
  exact walk_congr hw (by norm_num)

/-- C5: `fx_convert` does not fail with `NotConvertible` whenever the
target is unreachable: on `pumpTable` both AAA and TTT are present in the
graph, TTT is unreachable from AAA, yet the conversion of a nonzero amount
diverges — it neither fails nor returns anything. -/
theorem fx_convert_unreachable_divergence :
    buildFxGraph (selectRatesFor pumpTable 20250815) 20250815 = .ok pumpGraph ∧
    lookupIndex pumpGraph.currencyIndex "AAA" = some 0 ∧
    lookupIndex pumpGraph.currencyIndex "TTT" = some 3 ∧
    NoFxPath pumpGraph.adjacency 0 3 ∧
    FxDiverges pumpTable 20250815 1 "AAA" "TTT" :=
  ⟨by decide, by decide, by decide, pump_no_path, pump_diverges⟩

/-! ## Cache map operations -/

theorem lookupGraph_mem {gs : List (Nat × FxGraph)} {d : Nat} {g : FxGraph}
    (h : lookupGraph gs d = some g) : (d, g) ∈ gs := by
  simp only [lookupGraph, Option.map_eq_some'] at h
  obtain ⟨⟨p1, p2⟩, hfind, hp2⟩ := h
  have h1 : p1 = d := by simpa using List.find?_some hfind
  have h2 : p2 = g := hp2
  subst h1
  subst h2
  exact List.mem_of_find?_eq_some hfind

theorem lookupGraph_removeGraph : ∀ (gs : List (Nat × FxGraph)) (o d : Nat)
    (g : FxGraph), lookupGraph (removeGraph gs o) d = some g →
      lookupGraph gs d = some g
  | [], o, d, g, h => by simp [removeGraph, lookupGraph] at h
  | p :: ps, o, d, g, h => by
    have hdo : d ≠ o := by
      have hmem := lookupGraph_mem h
      have hf := List.of_mem_filter hmem
      simp at hf
      exact hf
    by_cases hpo : p.1 = o
    · rw [show removeGraph (p :: ps) o = removeGraph ps o from by
        simp [removeGraph, List.filter_cons, hpo]] at h
      have hres := lookupGraph_removeGraph ps o d g h
      unfold lookupGraph at hres ⊢
      rw [List.find?_cons_of_neg _ (by
        simp only [decide_eq_true_eq]
        exact fun hEq => hdo (hEq ▸ hpo))]
      exact hres
    · rw [show removeGraph (p :: ps) o = p :: removeGraph ps o from by
        simp [removeGraph, List.filter_cons, hpo]] at h
      unfold lookupGraph at h ⊢
      by_cases hpd : p.1 = d
      · rw [List.find?_cons_of_pos _ (by simpa using hpd)] at h
        rw [List.find?_cons_of_pos _ (by simpa using hpd)]
        exact h
      · rw [List.find?_cons_of_neg _ (by simpa using hpd)] at h
        rw [List.find?_cons_of_neg _ (by simpa using hpd)]
        exact lookupGraph_removeGraph ps o d g h

theorem lookupGraph_insertGraph_self : ∀ (gs : List (Nat × FxGraph)) (d : Nat)
    (g : FxGraph), lookupGraph (insertGraph gs d g) d = some g
  | [], d, g => by
    unfold insertGraph lookupGraph
    rw [show List.filter (fun p => decide (p.1 ≠ d))
        ([] : List (Nat × FxGraph)) ++ [(d, g)] = [(d, g)] from rfl]
    rw [List.find?_cons_of_pos _ (by simp)]
    rfl
  | p :: ps, d, g => by
    by_cases hpd : p.1 = d
    · rw [show insertGraph (p :: ps) d g = insertGraph ps d g from by
        simp [insertGraph, List.filter_cons, hpd]]
      exact lookupGraph_insertGraph_self ps d g
    · rw [show insertGraph (p :: ps) d g = p :: insertGraph ps d g from by
        simp [insertGraph, List.filter_cons, hpd]]
      unfold lookupGraph
      rw [List.find?_cons_of_neg _ (by simpa using hpd)]
      exact lookupGraph_insertGraph_self ps d g

theorem lookupGraph_insertGraph_ne : ∀ (gs : List (Nat × FxGraph)) (d : Nat)
    (g : FxGraph) {d' : Nat}, d' ≠ d →
      lookupGraph (insertGraph gs d g) d' = lookupGraph gs d'
  | [], d, g, d', hne => by
    unfold insertGraph lookupGraph
    rw [show List.filter (fun p => decide (p.1 ≠ d))
        ([] : List (Nat × FxGraph)) ++ [(d, g)] = [(d, g)] from rfl]
    rw [List.find?_cons_of_neg _ (by
      simp only [decide_eq_true_eq]
      exact fun hEq => hne hEq.symm)]
  | p :: ps, d, g, d', hne => by
    by_cases hpd : p.1 = d
    · rw [show insertGraph (p :: ps) d g = insertGraph ps d g from by
        simp [insertGraph, List.filter_cons, hpd]]
      rw [lookupGraph_insertGraph_ne ps d g hne]
      unfold lookupGraph
      rw [List.find?_cons_of_neg _ (by
        simp only [decide_eq_true_eq]
        exact fun hEq => hne (hEq ▸ hpd))]
    · rw [show insertGraph (p :: ps) d g = p :: insertGraph ps d g from by
        simp [insertGraph, List.filter_cons, hpd]]
      unfold lookupGraph
      by_cases hpd' : p.1 = d'
      · rw [List.find?_cons_of_pos _ (by simpa using hpd'),
          List.find?_cons_of_pos _ (by simpa using hpd')]
      · rw [List.find?_cons_of_neg _ (by simpa using hpd'),
          List.find?_cons_of_neg _ (by simpa using hpd')]
        exact lookupGraph_insertGraph_ne ps d g hne

theorem lookupGraph_evictLoop : ∀ (o : List Nat) (gs : List (Nat × FxGraph))
    {d : Nat} {g : FxGraph},
      lookupGraph (evictLoop o gs).1 d = some g → lookupGraph gs d = some g
  | [], gs, d, g, h => h
  | x :: rest, gs, d, g, h => by
    unfold evictLoop at h
    by_cases hcap : maxFxGraphCacheDates < rest.length + 1
    · rw [if_pos hcap] at h
      exact lookupGraph_removeGraph gs x d g (lookupGraph_evictLoop rest _ h)
    · rw [if_neg hcap] at h
      exact h

/-! ## The miss path rebuilds from the store and leaves a coherent entry -/

theorem fxGraphMiss_spec (store : FxStore) (entry? : Option FxCacheEntry) (d : Nat)
    (g : FxGraph) (e' : FxCacheEntry)
    (hprev : ∀ e, entry? = some e →
      (e.dataVersion = store.dataVersion ∧ e.totalChanges = store.totalChanges) →
      ∀ d' g', lookupGraph e.graphs d' = some g' →
        buildFxGraph (selectRatesFor store.rates d') d' = .ok g')
    (h : fxGraphMiss store entry? d = .ok (g, e')) :
    buildFxGraph (selectRatesFor store.rates d) d = .ok g ∧
    e'.dataVersion = store.dataVersion ∧ e'.totalChanges = store.totalChanges ∧
    ∀ d' g', lookupGraph e'.graphs d' = some g' →
      buildFxGraph (selectRatesFor store.rates d') d' = .ok g' := by
  unfold fxGraphMiss at h
  revert h
  cases hb : buildFxGraph (selectRatesFor store.rates d) d with
  | error er =>
    intro h
    exact absurd h (by simp)
  | ok g0 =>
    intro h
    cases entry? with
    | none =>
      dsimp only at h
      rw [if_pos ⟨rfl, rfl⟩] at h
      simp only [Except.ok.injEq, Prod.mk.injEq] at h
      obtain ⟨hg, he⟩ := h
      subst hg
      subst he
      refine ⟨rfl, rfl, rfl, ?_⟩
      intro d' g' hl
      have hl2 := lookupGraph_evictLoop _ _ hl
      by_cases hdd : d' = d
      · subst hdd
        rw [lookupGraph_insertGraph_self] at hl2
        obtain rfl := Option.some.inj hl2
        exact hb
      · rw [lookupGraph_insertGraph_ne _ _ _ hdd] at hl2
        simp [lookupGraph] at hl2
    | some ec =>
      dsimp only at h
      by_cases hst : ec.dataVersion = store.dataVersion ∧
          ec.totalChanges = store.totalChanges
      · rw [if_pos hst] at h
        simp only [Except.ok.injEq, Prod.mk.injEq] at h
        obtain ⟨hg, he⟩ := h
        subst hg
        subst he
        refine ⟨rfl, rfl, rfl, ?_⟩
        intro d' g' hl
        have hl2 := lookupGraph_evictLoop _ _ hl
        by_cases hdd : d' = d
        · subst hdd
          rw [lookupGraph_insertGraph_self] at hl2
          obtain rfl := Option.some.inj hl2
          exact hb
        · rw [lookupGraph_insertGraph_ne _ _ _ hdd] at hl2
          exact hprev ec rfl hst d' g' hl2
      · rw [if_neg hst] at h
        simp only [Except.ok.injEq, Prod.mk.injEq] at h
        obtain ⟨hg, he⟩ := h
        subst hg
        subst he
        refine ⟨rfl, rfl, rfl, ?_⟩
        intro d' g' hl
        have hl2 := lookupGraph_evictLoop _ _ hl
        by_cases hdd : d' = d
        · subst hdd
          rw [lookupGraph_insertGraph_self] at hl2
          obtain rfl := Option.some.inj hl2
          exact hb
        · rw [lookupGraph_insertGraph_ne _ _ _ hdd] at hl2
          simp [lookupGraph] at hl2

/-! ## Reachable cache states are coherent -/

theorem cacheInv_reachable : ∀ {s : FxStore × Option FxCacheEntry},
    ReachableCache s → CacheInv s := by
  intro s hr
  induction hr with
  | init store =>
    intro e he
    exact absurd he (by simp)
  | @stepWrite s rs dvB tcB hBump hr ih =>
    obtain ⟨store, cache⟩ := s
    have key : CacheInv (⟨rs, store.dataVersion + dvB, store.totalChanges + tcB⟩,
        cache) := by
      intro e he
      obtain ⟨h1, h2⟩ := ih e he
      dsimp only at h1 ⊢
      constructor
      · omega
      · intro hEq
        obtain ⟨hq1, hq2⟩ := hEq
        exfalso
        omega
    exact key
  | @stepConvert s fuel d amount f t hr ih =>
    obtain ⟨store, cache⟩ := s
    have key : CacheInv (store, (fxConvertCached store cache fuel d amount f t).2) := by
      intro e' he'
      dsimp only at he'
      revert he'
      unfold fxConvertCached
      by_cases hft : f = t
      · rw [if_pos hft]
        intro he'
        exact ih e' he'
      · rw [if_neg hft]
        cases hg : fxGraphFor store cache d with
        | error er =>
          intro he'
          exact ih e' he'
        | ok pr =>
          obtain ⟨g, enew⟩ := pr
          intro he'
          dsimp only at he'
          obtain rfl := Option.some.inj he'
          unfold fxGraphFor at hg
          revert hg
          cases cache with
          | none =>
            intro hg
            obtain ⟨hbuildg, hdv, htc, hlk⟩ :=
              fxGraphMiss_spec store none d g enew (by
                intro e he
                exact absurd he (by simp)) hg
            constructor
            · dsimp only
              omega
            · intro _ d' g' hl
              exact hlk d' g' hl
          | some ec =>
            dsimp only
            by_cases hst : ec.dataVersion = store.dataVersion ∧
                ec.totalChanges = store.totalChanges
            · rw [if_pos hst]
              cases hlk : lookupGraph ec.graphs d with
              | some gc =>
                intro hg
                simp only [Except.ok.injEq, Prod.mk.injEq] at hg
                obtain ⟨-, rfl⟩ := hg
                exact ih ec rfl
              | none =>
                intro hg
                obtain ⟨hbuildg, hdv, htc, hlka⟩ :=
                  fxGraphMiss_spec store (some ec) d g enew (by
                    intro e he hstamps d' g' hl
                    obtain rfl := Option.some.inj he
                    exact (ih ec rfl).2 hstamps d' g' hl) hg
                constructor
                · dsimp only
                  omega
                · intro _ d' g' hl
                  exact hlka d' g' hl
            · rw [if_neg hst]
              intro hg
              obtain ⟨hbuildg, hdv, htc, hlka⟩ :=
                fxGraphMiss_spec store (some ec) d g enew (by
                  intro e he hstamps d' g' hl
                  obtain rfl := Option.some.inj he
                  exact (ih ec rfl).2 hstamps d' g' hl) hg
              constructor
              · dsimp only
                omega
              · intro _ d' g' hl
                exact hlka d' g' hl
    exact key

/-- C4: the cache never changes the computed value. For every reachable
store-and-cache state whose entry's generation stamps equal the store's
current generation counters, a conversion through the cache returns exactly
the value the same conversion returns against an empty cache; in
particular, after a write advances a generation counter, the stale entry's
stamps no longer match and the next call rebuilds from the store. -/
theorem fx_cache_transparent (s : FxStore × Option FxCacheEntry)
    (hr : ReachableCache s) (e : FxCacheEntry) (he : s.2 = some e)
    (hdv : e.dataVersion = s.1.dataVersion)
    (htc : e.totalChanges = s.1.totalChanges) :
    ∀ fuel d amount fromCcy toCcy,
      (fxConvertCached s.1 s.2 fuel d amount fromCcy toCcy).1 =
      (fxConvertCached s.1 none fuel d amount fromCcy toCcy).1 := by
  intro fuel d amount f t
  obtain ⟨hle, hcoh⟩ := cacheInv_reachable hr e he
  rw [he]
  unfold fxConvertCached
  by_cases hft : f = t
  · rw [if_pos hft, if_pos hft]
  · rw [if_neg hft, if_neg hft]
    rw [show fxGraphFor s.1 none d = fxGraphMiss s.1 none d from rfl]
    unfold fxGraphFor
    dsimp only
    rw [if_pos ⟨hdv, htc⟩]
    cases hlk : lookupGraph e.graphs d with
    | some gc =>
      have hb : buildFxGraph (selectRatesFor s.1.rates d) d = .ok gc :=
        hcoh ⟨hdv, htc⟩ d gc hlk
      unfold fxGraphMiss
      rw [hb]
    | none =>
      unfold fxGraphMiss
      cases hb : buildFxGraph (selectRatesFor s.1.rates d) d with
      | error er => rfl
      | ok g0 => rfl

/-- Witness for cache transparency: the store holding the triangulation
table at generation (7, 3), after the single conversion call that populates
the cache with the graph for 2025-08-15. -/
theorem fx_cache_transparent_witness :
    (applyOp (⟨triTable, 7, 3⟩, none)
        (.convertCall 10 20250815 1 "USD" "JPY")).2 =
      some ⟨7, 3, [(20250815, triGraph)], [20250815]⟩ ∧
    ∀ fuel d amount fromCcy toCcy,
      (fxConvertCached (applyOp (⟨triTable, 7, 3⟩, none)
            (.convertCall 10 20250815 1 "USD" "JPY")).1
          (applyOp (⟨triTable, 7, 3⟩, none)
            (.convertCall 10 20250815 1 "USD" "JPY")).2
          fuel d amount fromCcy toCcy).1 =
      (fxConvertCached (applyOp (⟨triTable, 7, 3⟩, none)
            (.convertCall 10 20250815 1 "USD" "JPY")).1
          none fuel d amount fromCcy toCcy).1 :=
  ⟨by decide,
    fx_cache_transparent
      (applyOp (⟨triTable, 7, 3⟩, none) (.convertCall 10 20250815 1 "USD" "JPY"))
      (ReachableCache.stepConvert 10 20250815 1 "USD" "JPY"
        (ReachableCache.init ⟨triTable, 7, 3⟩))
      ⟨7, 3, [(20250815, triGraph)], [20250815]⟩
      (by decide) (by decide) (by decide)⟩

/-! ## Every division has a nonzero divisor -/

theorem ratAbs_pos_of_ne {q : ℚ} (h : ratAbs q ≠ 0) : 0 < ratAbs q := by
  unfold ratAbs at h ⊢
  by_cases h1 : q < 0
  · rw [if_pos h1]
    exact neg_pos.mpr h1
  · rw [if_neg h1] at h ⊢
    exact lt_of_le_of_ne (not_lt.mp h1) (Ne.symm h)

theorem matchLoop_eq_div (sellDate : Nat) (totalQty sellPrice sellFees : ℚ)
    (hq : totalQty ≠ 0) :
    ∀ (lots : List Lot) (realized remaining : ℚ),
      (∀ lot ∈ lots, lot.originalQty ≠ 0) →
      matchLoop sellDate totalQty sellPrice sellFees lots realized remaining =
      matchLoopDiv sellDate totalQty sellPrice sellFees lots realized remaining
  | [], r, rem, _ => rfl
  | lot :: rest, r, rem, hall => by
    simp only [matchLoop, matchLoopDiv]
    have h0 := hall lot (List.mem_cons_self _ _)
    have hrest : ∀ l ∈ rest, l.originalQty ≠ 0 :=
      fun l hl => hall l (List.mem_cons_of_mem _ hl)
    by_cases h1 : rem ≤ 0
    · rw [if_pos h1, if_pos h1]
    · rw [if_neg h1, if_neg h1]
      by_cases h2 : lot.remaining ≤ 0
      · rw [if_pos h2, if_pos h2,
          matchLoop_eq_div sellDate totalQty sellPrice sellFees hq rest r rem hrest]
      · rw [if_neg h2, if_neg h2]
        by_cases h3 : sellDate < lot.date
        · rw [if_pos h3, if_pos h3]
        · rw [if_neg h3, if_neg h3, if_neg h0, if_neg hq,
            matchLoop_eq_div sellDate totalQty sellPrice sellFees hq rest _ _ hrest]

/-- C10: every division the engine performs has a nonzero divisor. A built
graph carries only positive edge weights, so the synthesized reciprocal
`1/rate` is formed only after the positivity check admits the row; loaded
buy lots always have positive original quantity because zero-quantity buys
are skipped; and over such lots the guarded fee prorations of the matching
loop coincide with the bare divisions (the sell-side share divides by the
sell quantity, nonzero past the zero-quantity early return, and the
buy-side share divides by the lot's original quantity). -/
theorem engine_divisions_nonzero :
    (∀ (rows : List RateRow) (d : Nat) (g : FxGraph),
      buildFxGraph rows d = .ok g → ∀ l ∈ g.adjacency, ∀ e ∈ l, 0 < e.2) ∧
    (∀ (trades : List Trade) (ticker : String),
      ∀ lot ∈ loadBuyLots trades ticker, 0 < lot.originalQty) ∧
    (∀ (lots : List Lot) (sellDate : Nat) (sellQty sellPrice sellFees : ℚ),
      sellQty ≠ 0 → (∀ lot ∈ lots, lot.originalQty ≠ 0) →
      matchLoop sellDate sellQty sellPrice sellFees lots 0 sellQty =
        matchLoopDiv sellDate sellQty sellPrice sellFees lots 0 sellQty) ∧
    (∀ (ticker : String) (lots : List Lot) (sellDate : Nat)
        (sellPrice sellFees : ℚ),
      matchSellAgainstLots ticker lots sellDate 0 sellPrice sellFees =
        .ok (0, lots)) := by
  refine ⟨?_, ?_, ?_, ?_⟩
  · intro rows d g h l hl e he
    exact ((buildFxGraph_wf h).2 l hl e he).2
  · intro trades ticker lot hlot
    unfold loadBuyLots at hlot
    obtain ⟨t, htmem, hft⟩ := List.mem_filterMap.mp hlot
    revert hft
    by_cases hq : ratAbs t.quantity = 0
    · rw [if_pos hq]
      intro hft
      exact absurd hft (by simp)
    · rw [if_neg hq]
      intro hft
      obtain rfl := Option.some.inj hft
      exact ratAbs_pos_of_ne hq
  · intro lots sellDate sellQty sellPrice sellFees hq hall
    exact matchLoop_eq_div sellDate sellQty sellPrice sellFees hq lots 0 sellQty hall
  · intro ticker lots sellDate sellPrice sellFees
    unfold matchSellAgainstLots
    rw [if_pos rfl]

end Moneyclip
